import Mathlib

/-
Verification of the limecc parser generator core.

This file gives a shallow embedding, in Lean 4, of the algorithmic core of
the limecc repository (package `src/limecc`): the character-set labels of
`regex_parser.py`, the finite-automaton routines of `fa.py`, the FIRST_k
table of `first.py`, the LR(k) table construction and parse loop of
`lrparser.py`, and the lexer assembly of `lime_grammar.py`.  Characters are
modelled as natural-number code points and Python sets as lists with
membership semantics; Python dictionaries become association lists in
insertion order.  Loops whose termination the source does not argue are
given explicit fuel; running out of fuel is a distinct observable outcome.
-/

/- ---------------------------------------------------------------------
   regex_parser.Lit: character-set labels `(charset, inv)`.
   `charset` is a Python frozenset of characters; we model it as a list
   of code points, with membership as the meaning of the set.
   --------------------------------------------------------------------- -/

structure Lit where
  charset : List Nat
  inv : Bool
deriving DecidableEq, Repr

/- Python set operations on the `charset` component (membership semantics). -/
def listInter (a b : List Nat) : List Nat := a.filter (fun c => decide (c ∈ b))
def listDiff (a b : List Nat) : List Nat := a.filter (fun c => decide (c ∉ b))
def listUnion (a b : List Nat) : List Nat := a ++ b.filter (fun c => decide (c ∉ a))

/-- `Lit.__contains__`: `self.inv != (ch in self.charset)`. -/
def litMem (ch : Nat) (l : Lit) : Bool := l.inv != decide (ch ∈ l.charset)

/-- `Lit.__nonzero__`: `bool(self.charset) or self.inv`. -/
def litBool (l : Lit) : Bool := !l.charset.isEmpty || l.inv

/-- `Lit.__and__`. -/
def litAnd (s o : Lit) : Lit :=
  match s.inv, o.inv with
  | false, false => ⟨listInter s.charset o.charset, false⟩
  | true,  false => ⟨listDiff o.charset s.charset, false⟩
  | false, true  => ⟨listDiff s.charset o.charset, false⟩
  | true,  true  => ⟨listUnion s.charset o.charset, true⟩

/-- `Lit.__or__`. -/
def litOr (s o : Lit) : Lit :=
  match s.inv, o.inv with
  | false, false => ⟨listUnion s.charset o.charset, false⟩
  | true,  false => ⟨listDiff s.charset o.charset, true⟩
  | false, true  => ⟨listDiff o.charset s.charset, true⟩
  | true,  true  => ⟨listInter s.charset o.charset, true⟩

/-- `Lit.__sub__`. -/
def litSub (s o : Lit) : Lit :=
  match s.inv, o.inv with
  | false, false => ⟨listDiff s.charset o.charset, false⟩
  | true,  false => ⟨listUnion s.charset o.charset, true⟩
  | false, true  => ⟨listInter s.charset o.charset, false⟩
  | true,  true  => ⟨listDiff o.charset s.charset, false⟩

theorem mem_listInter {ch : Nat} {a b : List Nat} :
    ch ∈ listInter a b ↔ ch ∈ a ∧ ch ∈ b := by
  simp [listInter, List.mem_filter]

theorem mem_listDiff {ch : Nat} {a b : List Nat} :
    ch ∈ listDiff a b ↔ ch ∈ a ∧ ch ∉ b := by
  simp [listDiff, List.mem_filter]

theorem mem_listUnion {ch : Nat} {a b : List Nat} :
    ch ∈ listUnion a b ↔ ch ∈ a ∨ ch ∈ b := by
  simp [listUnion, List.mem_filter, List.mem_append]
  constructor
  · rintro (h | ⟨h, _⟩) <;> [exact Or.inl h; exact Or.inr h]
  · rintro (h | h)
    · exact Or.inl h
    · by_cases ha : ch ∈ a
      · exact Or.inl ha
      · exact Or.inr ⟨h, ha⟩

theorem litMem_and (ch : Nat) (a b : Lit) :
    litMem ch (litAnd a b) = (litMem ch a && litMem ch b) := by
  cases a with
  | mk ca ia =>
    cases b with
    | mk cb ib =>
      cases ia <;> cases ib <;>
        by_cases h1 : ch ∈ ca <;> by_cases h2 : ch ∈ cb <;>
          simp [litAnd, litMem, mem_listInter, mem_listDiff, mem_listUnion, h1, h2]

theorem litMem_or (ch : Nat) (a b : Lit) :
    litMem ch (litOr a b) = (litMem ch a || litMem ch b) := by
  cases a with
  | mk ca ia =>
    cases b with
    | mk cb ib =>
      cases ia <;> cases ib <;>
        by_cases h1 : ch ∈ ca <;> by_cases h2 : ch ∈ cb <;>
          simp [litOr, litMem, mem_listInter, mem_listDiff, mem_listUnion, h1, h2]

theorem litMem_sub (ch : Nat) (a b : Lit) :
    litMem ch (litSub a b) = (litMem ch a && !litMem ch b) := by
  cases a with
  | mk ca ia =>
    cases b with
    | mk cb ib =>
      cases ia <;> cases ib <;>
        by_cases h1 : ch ∈ ca <;> by_cases h2 : ch ∈ cb <;>
          simp [litSub, litMem, mem_listInter, mem_listDiff, mem_listUnion, h1, h2]

/-- The label built for a character range `lo-hi` inside a character class:
`range_elem : c - c` joins `chr(c)` for `c` in `xrange(ord(lhs), ord(rhs)+1)`. -/
def rangeChars (lo hi : Nat) : List Nat := List.range' lo (hi + 1 - lo)

/-- Label of `[^a-z]` (inverted character class). -/
def labelNotAZlower : Lit := ⟨rangeChars 97 122, true⟩

/-- Label of `[abc]`. -/
def labelAbc : Lit := ⟨[97, 98, 99], false⟩

/-- Label of `[A-Za-z]`. -/
def labelAlpha : Lit := ⟨listUnion (rangeChars 65 90) (rangeChars 97 122), false⟩

theorem mem_rangeChars {ch lo hi : Nat} :
    ch ∈ rangeChars lo hi ↔ lo ≤ ch ∧ ch ≤ hi := by
  simp only [rangeChars, List.mem_range']
  constructor
  · rintro ⟨i, hi', rfl⟩; omega
  · rintro ⟨h1, h2⟩; exact ⟨ch - lo, by omega, by omega⟩

/-- Claim C7: the `Lit` character-label operations are membership
homomorphisms — for all labels `a`, `b` and every character `ch`, `ch` is in
`a & b` iff it is in both, in `a | b` iff it is in either, and in `a - b`
iff it is in `a` and not in `b`; moreover the label of `[^a-z]` intersected
with the label of `[abc]` contains no character, and intersected with the
label of `[A-Za-z]` contains exactly the characters `A`–`Z` (codes 65–90). -/
theorem claim_C7 (a b : Lit) (ch : Nat) :
    (litMem ch (litAnd a b) = (litMem ch a && litMem ch b))
    ∧ (litMem ch (litOr a b) = (litMem ch a || litMem ch b))
    ∧ (litMem ch (litSub a b) = (litMem ch a && !litMem ch b))
    ∧ litMem ch (litAnd labelNotAZlower labelAbc) = false
    ∧ (litMem ch (litAnd labelNotAZlower labelAlpha) = (decide (65 ≤ ch) && decide (ch ≤ 90))) := by
  refine ⟨litMem_and ch a b, litMem_or ch a b, litMem_sub ch a b, ?_, ?_⟩
  · show (false != decide (ch ∈ listDiff [97, 98, 99] (rangeChars 97 122))) = false
    cases hm : decide (ch ∈ listDiff [97, 98, 99] (rangeChars 97 122)) with
    | false => rfl
    | true =>
      exfalso
      rw [decide_eq_true_eq] at hm
      rcases mem_listDiff.mp hm with ⟨h1, h2⟩
      rw [mem_rangeChars] at h2
      simp at h1
      omega
  · have hiff : (ch ∈ listDiff (listUnion (rangeChars 65 90) (rangeChars 97 122))
        (rangeChars 97 122)) ↔ (65 ≤ ch ∧ ch ≤ 90) := by
      simp only [mem_listDiff, mem_listUnion, mem_rangeChars]
      omega
    show (false != decide (ch ∈ listDiff (listUnion (rangeChars 65 90) (rangeChars 97 122))
      (rangeChars 97 122))) = (decide (65 ≤ ch) && decide (ch ≤ 90))
    simp [hiff]

/- ---------------------------------------------------------------------
   Finite automata (`fa.py` / `regex_parser.py`).

   `State` objects hold a list of outgoing edges `(target, label)` where a
   `None` label marks an epsilon edge, plus an accept label.  Python states
   are identity-based graph nodes; we put them in an arena and refer to
   them by their creation index.
   --------------------------------------------------------------------- -/

structure EState (α : Type) where
  outedges : List (Nat × Option Lit)
  accept : Option α
deriving DecidableEq, Repr

structure Fa (α : Type) where
  states : List (EState α)
  initial : List Nat
deriving DecidableEq, Repr

/-- Path acceptance for epsilon-free automata: starting at state `i`, the
remaining input is consumed edge by edge (epsilon edges never fire, which
is faithful for the automata produced by `make_dfa_from_literal`,
`convert_enfa_to_dfa` and `minimize_enfa`, none of which emit epsilon
edges); at the end the state's accept label must equal `t`. -/
def faAcceptFrom [DecidableEq α] (fa : Fa α) (t : α) (i : Nat) : List Nat → Bool
  | [] => ((fa.states.get? i).bind (fun st => st.accept)) == some t
  | c :: cs =>
    match fa.states.get? i with
    | none => false
    | some st =>
      st.outedges.any (fun e =>
        match e.2 with
        | some l => litMem c l && faAcceptFrom fa t e.1 cs
        | none => false)

/-- The automaton accepts word `s` with accept label `t`. -/
def faAccepts [DecidableEq α] (fa : Fa α) (s : List Nat) (t : α) : Bool :=
  fa.initial.any (fun i => faAcceptFrom fa t i s)

/-- The chain of states built by the loop of `make_dfa_from_literal`:
one fresh state per character of `lit`, each connected from its
predecessor over `Lit([ch])`, the last one accepting.  `i` is the arena
index of the state at the head of the remaining chain. -/
def chainStates (lbl : α) : List Nat → Nat → List (EState α)
  | [], _ => [⟨[], some lbl⟩]
  | c :: cs, i => ⟨[(i + 1, some ⟨[c], false⟩)], none⟩ :: chainStates lbl cs (i + 1)

/-- `regex_parser.make_dfa_from_literal`: a DFA with `len(lit)+1` states in
a chain, a single initial state, and a single accepting state labeled
`accept_label` at the end of the chain. -/
def make_dfa_from_literal (lit : List Nat) (lbl : α) : Fa α :=
  ⟨chainStates lbl lit 0, [0]⟩

theorem chainStates_get (lbl : α) :
    ∀ (lit : List Nat) (i0 j : Nat),
      (chainStates lbl lit i0).get? j =
        if j < lit.length then
          some ⟨[(i0 + j + 1, some ⟨[lit.getD j 0], false⟩)], none⟩
        else if j = lit.length then some ⟨[], some lbl⟩
        else none := by
  intro lit
  induction lit with
  | nil => intro i0 j; cases j <;> simp [chainStates]
  | cons c cs ih =>
    intro i0 j
    cases j with
    | zero => simp [chainStates]
    | succ j' =>
      simp only [chainStates, List.get?_cons_succ, ih (i0 + 1) j', List.length_cons,
        List.getD_cons_succ]
      by_cases h1 : j' < cs.length
      · simp only [h1, if_pos, if_pos (Nat.succ_lt_succ h1)]
        have : i0 + 1 + j' + 1 = i0 + (j' + 1) + 1 := by omega
        rw [this]
      · by_cases h2 : j' = cs.length
        · simp [h1, h2]
        · have h3 : ¬ (j' + 1 < cs.length + 1) := by omega
          have h4 : ¬ (j' + 1 = cs.length + 1) := by omega
          simp [h1, h2, h3, h4]

theorem chainStates_length (lbl : α) :
    ∀ (l : List Nat) (i0 : Nat), (chainStates lbl l i0).length = l.length + 1 := by
  intro l
  induction l with
  | nil => intro i0; rfl
  | cons x xs ihl => intro i0; simp [chainStates, ihl]

theorem chain_accept (lbl : α) [DecidableEq α] (lit : List Nat) :
    ∀ (s : List Nat) (j : Nat), j ≤ lit.length →
      (faAcceptFrom (make_dfa_from_literal lit lbl) lbl j s = true ↔ s = lit.drop j) := by
  intro s
  induction s with
  | nil =>
    intro j hj
    simp only [faAcceptFrom, make_dfa_from_literal, chainStates_get]
    by_cases h : j < lit.length
    · simp [h]
    · have hj' : j = lit.length := by omega
      simp [h, hj', List.drop_length]
  | cons c cs ih =>
    intro j hj
    by_cases h : j < lit.length
    · have hgd : lit.getD j 0 = lit[j] := by
        rw [List.getD_eq_getElem?_getD, List.getElem?_eq_getElem h]
        rfl
      have hdrop : lit.drop j = lit.getD j 0 :: lit.drop (j + 1) := by
        rw [List.drop_eq_getElem_cons h, hgd]
      simp only [faAcceptFrom, make_dfa_from_literal, chainStates_get, h, if_true, reduceIte]
      simp only [List.any_cons, List.any_nil, Bool.or_false]
      rw [hdrop]
      have hih := ih (j + 1) (by omega)
      simp only [make_dfa_from_literal] at hih
      simp [litMem, hih, List.cons.injEq]
    · have hj' : j = lit.length := by omega
      simp only [faAcceptFrom, make_dfa_from_literal, chainStates_get, hj']
      simp [List.drop_length]

/-- Claim C9: for every character sequence `lit` and accept label,
`make_dfa_from_literal` returns an automaton with exactly `len(lit)+1`
states arranged in a single chain (state `j < len(lit)` has exactly one
outgoing edge, to state `j+1`, over the one-character label `lit[j]`, and
is not accepting), exactly one initial state, exactly one accepting state
at the end of the chain carrying the given label, and the automaton
accepts a string with that label iff the string equals `lit`. -/
theorem claim_C9 [DecidableEq α] (lit : List Nat) (lbl : α) :
    ((make_dfa_from_literal lit lbl).states.length = lit.length + 1)
    ∧ (make_dfa_from_literal lit lbl).initial = [0]
    ∧ (∀ j, j < lit.length →
        (make_dfa_from_literal lit lbl).states.get? j =
          some ⟨[(j + 1, some ⟨[lit.getD j 0], false⟩)], none⟩)
    ∧ (make_dfa_from_literal lit lbl).states.get? lit.length = some ⟨[], some lbl⟩
    ∧ (∀ s, faAccepts (make_dfa_from_literal lit lbl) s lbl = true ↔ s = lit) := by
  refine ⟨chainStates_length lbl lit 0, rfl, ?_, ?_, ?_⟩
  · intro j hj
    rw [show (make_dfa_from_literal lit lbl).states = chainStates lbl lit 0 from rfl,
      chainStates_get]
    simp [hj]
  · rw [show (make_dfa_from_literal lit lbl).states = chainStates lbl lit 0 from rfl,
      chainStates_get]
    simp
  · intro s
    have hacc := chain_accept lbl lit s 0 (by omega)
    rw [List.drop_zero] at hacc
    show (make_dfa_from_literal lit lbl).initial.any
      (fun i => faAcceptFrom (make_dfa_from_literal lit lbl) lbl i s) = true ↔ s = lit
    rw [show (make_dfa_from_literal lit lbl).initial = [0] from rfl]
    simp only [List.any_cons, List.any_nil, Bool.or_false]
    exact hacc

/- ---------------------------------------------------------------------
   Association-list and canonical-set helpers.

   Python dicts become association lists in insertion order (`aset`
   overwrites the value of an existing key in place, appends otherwise);
   Python frozensets of state indices become sorted duplicate-free lists,
   so that list equality coincides with set equality.
   --------------------------------------------------------------------- -/

def alookup [DecidableEq κ] : List (κ × β) → κ → Option β
  | [], _ => none
  | p :: rest, k => if p.1 = k then some p.2 else alookup rest k

def aset [DecidableEq κ] : List (κ × β) → κ → β → List (κ × β)
  | [], k, v => [(k, v)]
  | p :: rest, k, v => if p.1 = k then (k, v) :: rest else p :: aset rest k v

def sortedInsertNat (a : Nat) : List Nat → List Nat
  | [] => [a]
  | b :: l =>
    if a < b then a :: b :: l
    else if a = b then b :: l
    else b :: sortedInsertNat a l

/-- Canonical form of a finite set of naturals: sorted, duplicate-free. -/
def canonSet (l : List Nat) : List Nat := l.foldr sortedInsertNat []

def listLt : List Nat → List Nat → Bool
  | [], [] => false
  | [], _ :: _ => true
  | _ :: _, [] => false
  | a :: as, b :: bs => if a < b then true else if b < a then false else listLt as bs

def sortedInsertBlock (x : List Nat) : List (List Nat) → List (List Nat)
  | [] => [x]
  | b :: l =>
    if listLt x b then x :: b :: l
    else if x = b then b :: l
    else b :: sortedInsertBlock x l

/-- Canonical form of a set of sets of naturals (a partition): every block
sorted and duplicate-free, blocks ordered lexicographically, duplicates
removed. -/
def canonPartition (p : List (List Nat)) : List (List Nat) :=
  (p.map canonSet).foldr sortedInsertBlock []

def posOf [DecidableEq κ] : List κ → κ → Option Nat
  | [], _ => none
  | x :: rest, k => if x = k then some 0 else (posOf rest k).map (· + 1)

/- ---------------------------------------------------------------------
   `fa.convert_enfa_to_dfa`.
   --------------------------------------------------------------------- -/

/-- Out-edges of an arena state (empty for a dangling index). -/
def outedgesOf (enfa : Fa α) (i : Nat) : List (Nat × Option Lit) :=
  match enfa.states.get? i with
  | none => []
  | some st => st.outedges

/-- Accept label of an arena state. -/
def acceptOf (enfa : Fa α) (i : Nat) : Option α :=
  (enfa.states.get? i).bind (fun st => st.accept)

/-- `_epsilon_closure`: worklist walk over epsilon (`None`-labeled) edges.
The worklist is a stack (Python pops from the end of `q`); the fuel
`init.length + |states| + 1` dominates the number of iterations, since
every iteration pops one entry and only never-seen states are pushed. -/
def epsClosureAux (enfa : Fa α) : Nat → List Nat → List Nat → List Nat
  | 0, _, res => res
  | _ + 1, [], res => res
  | fuel + 1, i :: q, res =>
    let step := (outedgesOf enfa i).foldl
      (fun (acc : List Nat × List Nat) e =>
        match e.2 with
        | some _ => acc
        | none => if e.1 ∈ acc.2 then acc else (e.1 :: acc.1, e.1 :: acc.2))
      (q, res)
    epsClosureAux enfa fuel step.1 step.2

/-- Epsilon closure of a set of NFA states, in canonical (sorted) form. -/
def epsClosure (enfa : Fa α) (init : List Nat) : List Nat :=
  canonSet (epsClosureAux enfa (init.length + enfa.states.length + 1) init init)

/-- The per-target label map of a subset-construction state: for every
labeled NFA edge out of a member of `key`, `edges[target]` is narrowed by
`&=` on collision (`convert_enfa_to_dfa`, inner `for` loop). -/
def edgeMapOf (enfa : Fa α) (key : List Nat) : List (Nat × Lit) :=
  key.foldl
    (fun acc i =>
      (outedgesOf enfa i).foldl
        (fun acc e =>
          match e.2 with
          | none => acc
          | some l =>
            match alookup acc e.1 with
            | none => acc ++ [(e.1, l)]
            | some old => aset acc e.1 (litAnd old l))
        acc)
    []

/-- The scan of `_get_maximum_charsets` / the `while edges` loop of
`convert_enfa_to_dfa`: starting from the first entry, every further entry
whose label meets the running candidate joins the group and shrinks the
candidate to the intersection. -/
def gmcsScan [DecidableEq κ] : List (κ × Lit) → List κ → Lit → (List κ × Lit)
  | [], items, cs => (items, cs)
  | (k, l) :: rest, items, cs =>
    if litBool (litAnd cs l) then gmcsScan rest (items ++ [k]) (litAnd cs l)
    else gmcsScan rest items cs

/-- After a group is emitted, its label is subtracted from every entry;
entries whose label becomes falsy are deleted. -/
def gmcsSubtract [DecidableEq κ] (m : List (κ × Lit)) (cs : Lit) : List (κ × Lit) :=
  m.filterMap (fun p =>
    if litBool (litSub p.2 cs) then some (p.1, litSub p.2 cs) else none)

/-- `_get_maximum_charsets` (and the structurally identical `while edges`
loop of `convert_enfa_to_dfa`), with the generator's yields collected into
a list.  `none` means the fuel ran out. -/
def getMaximumCharsets [DecidableEq κ] : Nat → List (κ × Lit) → Option (List (List κ × Lit))
  | 0, m => if m.isEmpty then some [] else none
  | _ + 1, [] => some []
  | fuel + 1, (k, l) :: rest =>
    match getMaximumCharsets fuel (gmcsSubtract ((k, l) :: rest) (gmcsScan rest [k] l).2) with
    | none => none
    | some ys => some (gmcsScan rest [k] l :: ys)

/-- `precombine` from `convert_enfa_to_dfa`. -/
def precombine [DecidableEq α] (combine : α → α → α) : Option α → Option α → Option α
  | none, r => r
  | some l, none => some l
  | some l, some r => if l = r then some l else some (combine l r)

/-- `reduce(precombine, (s.accept for s in state_set))`; for an empty
subset (possible only when the input automaton has no initial states,
where Python `reduce` would raise) we return `None`. -/
def combineAccepts [DecidableEq α] (combine : α → α → α) (enfa : Fa α) (key : List Nat) :
    Option α :=
  match key.map (acceptOf enfa) with
  | [] => none
  | a :: rest => rest.foldl (precombine combine) a

/-- One group emitted by the `while edges` loop: look up or create the DFA
state for the epsilon closure of the group's targets, enqueue it if fresh,
and record the edge.  State identity is the canonical closure list; a
state's arena index is its position in the discovery list `keys`. -/
def convertStep (enfa : Fa α) (st : List (List Nat) × List (List Nat) × List (Nat × Lit))
    (y : List Nat × Lit) : List (List Nat) × List (List Nat) × List (Nat × Lit) :=
  let keys := st.1
  let newq := st.2.1
  let out := st.2.2
  let tkey := epsClosure enfa y.1
  if tkey ∈ keys then
    (keys, newq, out ++ [((posOf keys tkey).getD 0, y.2)])
  else
    (keys ++ [tkey], tkey :: newq, out ++ [(keys.length, y.2)])

/-- The subset-construction worklist (`while q` in `convert_enfa_to_dfa`).
Returns the discovery list of DFA states (as canonical NFA-state sets) and
the association list of their out-edges. -/
def convertLoop [DecidableEq α] (enfa : Fa α) (gfuel : Nat) :
    Nat → List (List Nat) → List (List Nat) →
    List (Nat × List (Nat × Lit)) → Option (List (List Nat) × List (Nat × List (Nat × Lit)))
  | 0, _, _, _ => none
  | _ + 1, [], keys, acc => some (keys, acc)
  | fuel + 1, key :: q, keys, acc =>
    match getMaximumCharsets gfuel (edgeMapOf enfa key) with
    | none => none
    | some ys =>
      let r := ys.foldl (convertStep enfa) (keys, [], [])
      convertLoop enfa gfuel fuel (r.2.1 ++ q) r.1
        (acc ++ [((posOf keys key).getD 0, r.2.2)])

/-- `fa.convert_enfa_to_dfa`: subset construction over epsilon closures
with set-valued labels.  `none` reports fuel exhaustion. -/
def convert_enfa_to_dfa [DecidableEq α] (combine : α → α → α) (fuel : Nat) (enfa : Fa α) :
    Option (Fa α) :=
  match convertLoop enfa fuel fuel [epsClosure enfa enfa.initial]
      [epsClosure enfa enfa.initial] [] with
  | none => none
  | some r =>
    some ⟨r.1.map (fun key =>
      ⟨((alookup r.2 ((posOf r.1 key).getD 0)).getD []).map (fun e => (e.1, some e.2)),
        combineAccepts combine enfa key⟩), [0]⟩

/- ---------------------------------------------------------------------
   `fa.minimize_enfa`.
   --------------------------------------------------------------------- -/

/-- `_create_partition_map`: the block containing state `s`. -/
def partitionMapOf (partition : List (List Nat)) (s : Nat) : Option (List Nat) :=
  partition.find? (fun blk => blk.contains s)

/-- The initial partition: one block of non-accepting states plus one
block per distinct accept label (`minimize_enfa`, partition
initialization). -/
def initPartition [DecidableEq α] (fa : Fa α) : List (List Nat) :=
  let idxs := List.range fa.states.length
  let noAcc := idxs.filter (fun i => (acceptOf fa i).isNone)
  let groups := idxs.foldl
    (fun (acc : List (α × List Nat)) i =>
      match acceptOf fa i with
      | none => acc
      | some a =>
        match alookup acc a with
        | none => acc ++ [(a, [i])]
        | some l => aset acc a (l ++ [i]))
    []
  canonPartition (noAcc :: groups.map (fun g => g.2))

/-- Refinement of one class: the sibling sets of its states are narrowed
by every `(sources, charset)` group of the class's edge map.  The edge map
is keyed by `(state, target)`, so a later edge between the same pair of
states overwrites an earlier label, exactly as in the source. -/
def refineClass [DecidableEq α] (fa : Fa α) (partition : List (List Nat)) (gfuel : Nat)
    (cls : List Nat) : Option (List (List Nat)) :=
  let sib0 : List (Nat × List Nat) := cls.map (fun s => (s, cls))
  let edgeMap : List ((Nat × Nat) × Lit) := cls.foldl
    (fun acc s =>
      (outedgesOf fa s).foldl
        (fun acc e =>
          match e.2 with
          | none => acc
          | some l => aset acc (s, e.1) l)
        acc)
    []
  match getMaximumCharsets gfuel edgeMap with
  | none => none
  | some ys =>
    let sib := ys.foldl
      (fun sib y =>
        let tm : List (List Nat × List Nat) := y.1.foldl
          (fun tm p =>
            let blk := (partitionMapOf partition p.2).getD []
            match alookup tm blk with
            | none => tm ++ [(blk, [p.1])]
            | some srcs => aset tm blk (if p.1 ∈ srcs then srcs else srcs ++ [p.1]))
          []
        tm.foldl
          (fun sib pt =>
            sib.map (fun q =>
              if q.1 ∈ pt.2 then (q.1, listInter q.2 pt.2) else (q.1, listDiff q.2 pt.2)))
          sib)
      sib0
    some (sib.map (fun q => q.2))

def refineAll [DecidableEq α] (fa : Fa α) (partition : List (List Nat)) (gfuel : Nat) :
    List (List Nat) → Option (List (List Nat))
  | [] => some []
  | cls :: rest =>
    match refineClass fa partition gfuel cls, refineAll fa partition gfuel rest with
    | some bs, some rest' => some (bs ++ rest')
    | _, _ => none

/-- One refinement pass over all classes, canonicalized. -/
def refinePass [DecidableEq α] (fa : Fa α) (partition : List (List Nat)) (gfuel : Nat) :
    Option (List (List Nat)) :=
  (refineAll fa partition gfuel partition).map canonPartition

/-- The `while True` refinement loop: stop when a pass leaves the
partition unchanged. -/
def refineLoop [DecidableEq α] (fa : Fa α) (gfuel : Nat) :
    Nat → List (List Nat) → Option (List (List Nat))
  | 0, _ => none
  | fuel + 1, partition =>
    match refinePass fa partition gfuel with
    | none => none
    | some np => if np = partition then some partition else refineLoop fa gfuel fuel np

/- Quotient state of one class: its states' out-edges are merged into a
target-keyed label map (again with in-place overwrite on a repeated
target), the maximal common sub-labels are grouped, each group checked to
target a single block (the source's `assert`), and labels joining the same
target block are united. -/

/-- The arena index assigned to the target block of a group yielded by
`_get_maximum_charsets` over a class's target-keyed label map. -/
def yKey (partition : List (List Nat)) (y : List Nat × Lit) : Nat :=
  (posOf partition ((partitionMapOf partition (y.1.headD 0)).getD [])).getD 0

/-- The `target_map` loop of the quotient construction: each group is
checked to target a single block (the source's `assert`; violation yields
`none`) and its label is merged by `|=` into the entry of that block. -/
def quotTm (partition : List (List Nat)) : List (List Nat × Lit) → List (Nat × Lit) →
    Option (List (Nat × Lit))
  | [], tm => some tm
  | y :: ys, tm =>
    let blk := (partitionMapOf partition (y.1.headD 0)).getD []
    if y.1.all (fun t => decide ((partitionMapOf partition t).getD [] = blk)) then
      match alookup tm (yKey partition y) with
      | none => quotTm partition ys (tm ++ [(yKey partition y, y.2)])
      | some old => quotTm partition ys (aset tm (yKey partition y) (litOr old y.2))
    else none

/-- The `target_labels` map of the quotient construction: out-edges of all
states of a class keyed by target (in-place overwrite on a repeated
target, as in the source). -/
def targetLabelsOf (fa : Fa α) (cls : List Nat) : List (Nat × Lit) :=
  cls.foldl
    (fun acc s =>
      (outedgesOf fa s).foldl
        (fun acc e =>
          match e.2 with
          | none => acc
          | some l => aset acc e.1 l)
        acc)
    []

def quotientClass [DecidableEq α] (fa : Fa α) (partition : List (List Nat)) (gfuel : Nat)
    (cls : List Nat) : Option (EState α) :=
  match getMaximumCharsets gfuel (targetLabelsOf fa cls) with
  | none => none
  | some ys =>
    match quotTm partition ys [] with
    | none => none
    | some tm =>
      some ⟨tm.map (fun e => (e.1, some e.2)), acceptOf fa (cls.headD 0)⟩

def mapOpt (f : κ → Option β) : List κ → Option (List β)
  | [] => some []
  | x :: xs =>
    match f x, mapOpt f xs with
    | some y, some ys => some (y :: ys)
    | _, _ => none

/-- `fa.minimize_enfa`: determinize, refine the partition to a fixed
point, and build the quotient automaton.  Quotient states appear in the
canonical order of the final partition; the source's `assert` and fuel
exhaustion both yield `none`. -/
def minimize_enfa [DecidableEq α] (combine : α → α → α) (fuel : Nat) (enfa : Fa α) :
    Option (Fa α) :=
  match convert_enfa_to_dfa combine fuel enfa with
  | none => none
  | some fa =>
    match refineLoop fa fuel fuel (initPartition fa) with
    | none => none
    | some partition =>
      match mapOpt (quotientClass fa partition fuel) partition with
      | none => none
      | some sts =>
        match fa.initial.head? with
        | none => none
        | some i0 =>
          some ⟨sts, [(posOf partition ((partitionMapOf partition i0).getD [])).getD 0]⟩

/- ---------------------------------------------------------------------
   Claim C1: minimization vs. determinization.
   --------------------------------------------------------------------- -/

/-- An epsilon-NFA on which `minimize_enfa` loses part of the language:
state 0 steps to state 1 over `a` (97) and to state 2 over `b` (98), and
states 1 and 2 are connected by epsilon edges in both directions, so the
subset construction emits two parallel edges from the initial DFA state to
the same DFA state `{1,2}`.  The target-keyed maps of `minimize_enfa`
keep only one of the two labels. -/
def enfaC1 : Fa Nat :=
  ⟨[⟨[(1, some ⟨[97], false⟩), (2, some ⟨[98], false⟩)], none⟩,
    ⟨[(2, none)], some 0⟩,
    ⟨[(1, none)], none⟩], [0]⟩

/-- Claim C1: for every input automaton and string, the automaton returned
by `minimize_enfa` accepts the string with a tag iff the DFA returned by
`convert_enfa_to_dfa` does.  This fails on `enfaC1`: the DFA accepts both
`"a"` and `"b"` with tag 0, but the minimized automaton rejects `"a"`
(while still accepting `"b"`), because `minimize_enfa` keys its edge maps
by target state and a second parallel edge overwrites the first label. -/
theorem claim_C1_code_bug :
    ((convert_enfa_to_dfa Nat.min 100 enfaC1).map
        (fun d => faAccepts d [97] 0) = some true)
    ∧ ((minimize_enfa Nat.min 100 enfaC1).map
        (fun d => faAccepts d [97] 0) = some false)
    ∧ ((convert_enfa_to_dfa Nat.min 100 enfaC1).map
        (fun d => faAccepts d [98] 0) = some true)
    ∧ ((minimize_enfa Nat.min 100 enfaC1).map
        (fun d => faAccepts d [98] 0) = some true) := by
  refine ⟨?_, ?_, ?_, ?_⟩ <;> decide

/- ---------------------------------------------------------------------
   Claim C2: determinism of the automata produced by
   `convert_enfa_to_dfa` and `minimize_enfa`.
   --------------------------------------------------------------------- -/

/-- Two labels denote disjoint character sets. -/
def litsDisj (a b : Lit) : Prop := ∀ ch, ¬(litMem ch a = true ∧ litMem ch b = true)

theorem litsDisj_symm {a b : Lit} (h : litsDisj a b) : litsDisj b a :=
  fun ch hc => h ch ⟨hc.2, hc.1⟩

theorem litsDisj_and_false {a b : Lit} (h : litsDisj a b) :
    ∀ ch, litMem ch (litAnd a b) = false := by
  intro ch
  rw [litMem_and]
  cases h1 : litMem ch a with
  | false => rfl
  | true =>
    cases h2 : litMem ch b with
    | false => rfl
    | true => exact absurd ⟨h1, h2⟩ (h ch)

theorem alookup_mem [DecidableEq κ] {l : List (κ × β)} {k : κ} {v : β}
    (h : alookup l k = some v) : (k, v) ∈ l := by
  induction l with
  | nil => simp [alookup] at h
  | cons p rest ih =>
    rw [alookup] at h
    by_cases hp : p.1 = k
    · rw [if_pos hp] at h
      cases h
      cases p with
      | mk a b =>
        cases hp
        exact List.mem_cons_self _ _
    · rw [if_neg hp] at h
      exact List.mem_cons_of_mem _ (ih h)

theorem mem_aset [DecidableEq κ] {l : List (κ × β)} {k : κ} {v : β} {p : κ × β}
    (h : p ∈ aset l k v) : p = (k, v) ∨ p ∈ l := by
  induction l with
  | nil => simp [aset] at h; exact Or.inl h
  | cons q rest ih =>
    rw [aset] at h
    by_cases hq : q.1 = k
    · rw [if_pos hq] at h
      rcases List.mem_cons.mp h with h | h
      · exact Or.inl h
      · exact Or.inr (List.mem_cons_of_mem _ h)
    · rw [if_neg hq] at h
      rcases List.mem_cons.mp h with h | h
      · exact Or.inr (by rw [h]; exact List.mem_cons_self _ _)
      · rcases ih h with h | h
        · exact Or.inl h
        · exact Or.inr (List.mem_cons_of_mem _ h)

theorem aset_keys [DecidableEq κ] {l : List (κ × β)} {k : κ} {v w : β}
    (h : alookup l k = some w) : (aset l k v).map Prod.fst = l.map Prod.fst := by
  induction l with
  | nil => simp [alookup] at h
  | cons q rest ih =>
    rw [alookup] at h
    rw [aset]
    by_cases hq : q.1 = k
    · rw [if_pos hq]
      simp [hq]
    · rw [if_neg hq] at h ⊢
      simp [ih h]

theorem alookup_none [DecidableEq κ] {l : List (κ × β)} {k : κ}
    (h : alookup l k = none) : ∀ p ∈ l, p.1 ≠ k := by
  induction l with
  | nil => intro p hp; simp at hp
  | cons q rest ih =>
    rw [alookup] at h
    by_cases hq : q.1 = k
    · rw [if_pos hq] at h; cases h
    · rw [if_neg hq] at h
      intro p hp
      rcases List.mem_cons.mp hp with rfl | hp
      · exact hq
      · exact ih h p hp

theorem gmcsScan_sub [DecidableEq κ] :
    ∀ (rest : List (κ × Lit)) (items : List κ) (cs : Lit) (ch : Nat),
      litMem ch (gmcsScan rest items cs).2 = true → litMem ch cs = true := by
  intro rest
  induction rest with
  | nil => intro items cs ch h; exact h
  | cons p rs ih =>
    intro items cs ch h
    cases p with
    | mk k l =>
      rw [gmcsScan] at h
      by_cases hb : litBool (litAnd cs l) = true
      · rw [if_pos hb] at h
        have := ih _ _ _ h
        rw [litMem_and] at this
        simp only [Bool.and_eq_true] at this
        exact this.1
      · rw [if_neg hb] at h
        exact ih _ _ _ h

theorem mem_gmcsSubtract [DecidableEq κ] {m : List (κ × Lit)} {cs : Lit} {p : κ × Lit}
    (h : p ∈ gmcsSubtract m cs) : ∃ q ∈ m, p = (q.1, litSub q.2 cs) := by
  rw [gmcsSubtract] at h
  rcases List.mem_filterMap.mp h with ⟨q, hq, hcond⟩
  refine ⟨q, hq, ?_⟩
  by_cases hb : litBool (litSub q.2 cs) = true
  · rw [if_pos hb] at hcond; cases hcond; rfl
  · rw [if_neg hb] at hcond; cases hcond

theorem gmcs_src [DecidableEq κ] :
    ∀ (fuel : Nat) (m : List (κ × Lit)) (ys : List (List κ × Lit)),
      getMaximumCharsets fuel m = some ys →
      ∀ y ∈ ys, ∀ ch, litMem ch y.2 = true → ∃ p ∈ m, litMem ch p.2 = true := by
  intro fuel
  induction fuel with
  | zero =>
    intro m ys h
    rw [getMaximumCharsets] at h
    by_cases hm : m.isEmpty = true
    · rw [if_pos hm] at h
      cases h
      intro y hy
      simp at hy
    · rw [if_neg hm] at h
      cases h
  | succ f ih =>
    intro m ys h
    match m with
    | [] =>
      rw [getMaximumCharsets] at h
      cases h
      intro y hy
      simp at hy
    | (k, l) :: rest =>
      rw [getMaximumCharsets] at h
      cases hrec : getMaximumCharsets f
          (gmcsSubtract ((k, l) :: rest) (gmcsScan rest [k] l).2) with
      | none => rw [hrec] at h; cases h
      | some ys' =>
        rw [hrec] at h
        cases h
        intro y hy ch hm
        rcases List.mem_cons.mp hy with rfl | hy'
        · exact ⟨(k, l), List.mem_cons_self _ _, gmcsScan_sub rest [k] l ch hm⟩
        · rcases ih _ _ hrec y hy' ch hm with ⟨p, hp, hpm⟩
          rcases mem_gmcsSubtract hp with ⟨q, hq, rfl⟩
          refine ⟨q, hq, ?_⟩
          rw [litMem_sub] at hpm
          simp only [Bool.and_eq_true] at hpm
          exact hpm.1

theorem gmcs_pairwise [DecidableEq κ] :
    ∀ (fuel : Nat) (m : List (κ × Lit)) (ys : List (List κ × Lit)),
      getMaximumCharsets fuel m = some ys →
      ys.Pairwise (fun a b => litsDisj a.2 b.2) := by
  intro fuel
  induction fuel with
  | zero =>
    intro m ys h
    rw [getMaximumCharsets] at h
    by_cases hm : m.isEmpty = true
    · rw [if_pos hm] at h; cases h; exact List.Pairwise.nil
    · rw [if_neg hm] at h; cases h
  | succ f ih =>
    intro m ys h
    match m with
    | [] =>
      rw [getMaximumCharsets] at h
      cases h
      exact List.Pairwise.nil
    | (k, l) :: rest =>
      rw [getMaximumCharsets] at h
      cases hrec : getMaximumCharsets f
          (gmcsSubtract ((k, l) :: rest) (gmcsScan rest [k] l).2) with
      | none => rw [hrec] at h; cases h
      | some ys' =>
        rw [hrec] at h
        cases h
        refine List.Pairwise.cons ?_ (ih _ _ hrec)
        intro y hy ch ⟨hc1, hc2⟩
        rcases gmcs_src f _ _ hrec y hy ch hc2 with ⟨p, hp, hpm⟩
        rcases mem_gmcsSubtract hp with ⟨q, hq, rfl⟩
        rw [litMem_sub] at hpm
        simp only [Bool.and_eq_true] at hpm
        rw [hc1] at hpm
        exact Bool.noConfusion hpm.2

/-- A target-label list whose labels are pairwise disjoint. -/
def pairLabels (v : List (Nat × Lit)) : Prop :=
  v.Pairwise (fun e f => litsDisj e.2 f.2)

theorem convertFold_labels (enfa : Fa α) :
    ∀ (ys : List (List Nat × Lit)) (keys q : List (List Nat)) (out : List (Nat × Lit)),
      ((ys.foldl (convertStep enfa) (keys, q, out)).2.2).map Prod.snd =
        out.map Prod.snd ++ ys.map Prod.snd := by
  intro ys
  induction ys with
  | nil => intro keys q out; simp
  | cons y ys ih =>
    intro keys q out
    rw [List.foldl_cons]
    by_cases h : epsClosure enfa y.1 ∈ keys
    · rw [show convertStep enfa (keys, q, out) y =
          (keys, q, out ++ [((posOf keys (epsClosure enfa y.1)).getD 0, y.2)]) from by
        simp [convertStep, h]]
      rw [ih]
      simp
    · rw [show convertStep enfa (keys, q, out) y =
          (keys ++ [epsClosure enfa y.1], epsClosure enfa y.1 :: q,
            out ++ [(keys.length, y.2)]) from by
        simp [convertStep, h]]
      rw [ih]
      simp

theorem convertLoop_inv [DecidableEq α] (enfa : Fa α) (gfuel : Nat) :
    ∀ (fuel : Nat) (q keys : List (List Nat)) (acc : List (Nat × List (Nat × Lit)))
      (res : List (List Nat) × List (Nat × List (Nat × Lit))),
      convertLoop enfa gfuel fuel q keys acc = some res →
      (∀ a ∈ acc, pairLabels a.2) → ∀ a ∈ res.2, pairLabels a.2 := by
  intro fuel
  induction fuel with
  | zero => intro q keys acc res h; rw [convertLoop] at h; cases h
  | succ f ih =>
    intro q keys acc res h hacc
    match q with
    | [] =>
      rw [convertLoop] at h
      cases h
      exact hacc
    | key :: q' =>
      rw [convertLoop] at h
      cases hg : getMaximumCharsets gfuel (edgeMapOf enfa key) with
      | none => rw [hg] at h; cases h
      | some ys =>
        rw [hg] at h
        refine ih _ _ _ _ h ?_
        intro a ha
        rcases List.mem_append.mp ha with ha | ha
        · exact hacc a ha
        · rcases List.mem_singleton.mp ha with rfl
          show pairLabels (ys.foldl (convertStep enfa) (keys, [], [])).2.2
          have hl := convertFold_labels enfa ys keys [] []
          rw [List.map_nil, List.nil_append] at hl
          have h1 : (ys.map Prod.snd).Pairwise litsDisj :=
            List.pairwise_map.mpr (gmcs_pairwise gfuel _ _ hg)
          have h2 : ((ys.foldl (convertStep enfa) (keys, [], [])).2.2.map Prod.snd).Pairwise
              litsDisj := by
            rw [hl]
            exact h1
          exact List.pairwise_map.mp h2

theorem quotTm_src (partition : List (List Nat)) :
    ∀ (ys : List (List Nat × Lit)) (tm tm' : List (Nat × Lit)),
      quotTm partition ys tm = some tm' →
      ∀ p ∈ tm', ∀ ch, litMem ch p.2 = true →
        (∃ q ∈ tm, q.1 = p.1 ∧ litMem ch q.2 = true)
        ∨ (∃ y ∈ ys, yKey partition y = p.1 ∧ litMem ch y.2 = true) := by
  intro ys
  induction ys with
  | nil =>
    intro tm tm' h p hp ch hm
    rw [quotTm] at h
    cases h
    exact Or.inl ⟨p, hp, rfl, hm⟩
  | cons y ys ih =>
    intro tm tm' h p hp ch hm
    rw [quotTm] at h
    by_cases ha : y.1.all (fun t => decide ((partitionMapOf partition t).getD [] =
        (partitionMapOf partition (y.1.headD 0)).getD [])) = true
    · rw [if_pos ha] at h
      cases hal : alookup tm (yKey partition y) with
      | none =>
        rw [hal] at h
        rcases ih _ _ h p hp ch hm with ⟨q, hq, hqk, hqm⟩ | ⟨y', hy', hyk, hym⟩
        · rcases List.mem_append.mp hq with hq | hq
          · exact Or.inl ⟨q, hq, hqk, hqm⟩
          · rcases List.mem_singleton.mp hq with rfl
            exact Or.inr ⟨y, List.mem_cons_self _ _, hqk, hqm⟩
        · exact Or.inr ⟨y', List.mem_cons_of_mem _ hy', hyk, hym⟩
      | some old =>
        rw [hal] at h
        rcases ih _ _ h p hp ch hm with ⟨q, hq, hqk, hqm⟩ | ⟨y', hy', hyk, hym⟩
        · rcases mem_aset hq with rfl | hq
          · rw [litMem_or] at hqm
            simp only [Bool.or_eq_true] at hqm
            rcases hqm with hqm | hqm
            · exact Or.inl ⟨(yKey partition y, old), alookup_mem hal, hqk, hqm⟩
            · exact Or.inr ⟨y, List.mem_cons_self _ _, hqk, hqm⟩
          · exact Or.inl ⟨q, hq, hqk, hqm⟩
        · exact Or.inr ⟨y', List.mem_cons_of_mem _ hy', hyk, hym⟩
    · rw [if_neg ha] at h
      cases h

theorem quotTm_keys (partition : List (List Nat)) :
    ∀ (ys : List (List Nat × Lit)) (tm tm' : List (Nat × Lit)),
      quotTm partition ys tm = some tm' →
      (tm.map Prod.fst).Nodup → (tm'.map Prod.fst).Nodup := by
  intro ys
  induction ys with
  | nil =>
    intro tm tm' h hnd
    rw [quotTm] at h
    cases h
    exact hnd
  | cons y ys ih =>
    intro tm tm' h hnd
    rw [quotTm] at h
    by_cases ha : y.1.all (fun t => decide ((partitionMapOf partition t).getD [] =
        (partitionMapOf partition (y.1.headD 0)).getD [])) = true
    · rw [if_pos ha] at h
      cases hal : alookup tm (yKey partition y) with
      | none =>
        rw [hal] at h
        refine ih _ _ h ?_
        rw [List.map_append]
        simp only [List.map_cons, List.map_nil]
        rw [List.nodup_append]
        refine ⟨hnd, List.nodup_singleton _, ?_⟩
        intro x hx
        simp only [List.mem_singleton]
        intro hx1
        rcases List.mem_map.mp hx with ⟨p, hp, rfl⟩
        exact alookup_none hal p hp (by rw [hx1])
      | some old =>
        rw [hal] at h
        refine ih _ _ h ?_
        rw [aset_keys hal]
        exact hnd
    · rw [if_neg ha] at h
      cases h

theorem quotTm_pairwise (partition : List (List Nat)) (ys : List (List Nat × Lit))
    (tm' : List (Nat × Lit)) (h : quotTm partition ys [] = some tm')
    (hys : ys.Pairwise (fun a b => litsDisj a.2 b.2)) : pairLabels tm' := by
  have hk : (tm'.map Prod.fst).Nodup := quotTm_keys partition ys [] tm' h (by simp)
  have hnd : tm'.Nodup := hk.of_map Prod.fst
  refine hnd.pairwise_of_forall_ne ?_
  intro p hp q hq hne
  intro ch hc
  rcases hc with ⟨hcp, hcq⟩
  have hkey : p.1 ≠ q.1 := by
    intro he
    exact hne (List.inj_on_of_nodup_map hk hp hq he)
  rcases quotTm_src partition ys [] tm' h p hp ch hcp with ⟨q0, hq0, _, _⟩ | ⟨y, hy, hyk, hym⟩
  · simp at hq0
  rcases quotTm_src partition ys [] tm' h q hq ch hcq with ⟨q0, hq0, _, _⟩ | ⟨y', hy', hyk', hym'⟩
  · simp at hq0
  have hyy : y ≠ y' := by
    intro he
    rw [he, hyk'] at hyk
    exact hkey hyk.symm
  have hsym : Symmetric (fun (a b : List Nat × Lit) => litsDisj a.2 b.2) :=
    fun a b hab => litsDisj_symm hab
  exact (hys.forall hsym) hy hy' hyy ch ⟨hym, hym'⟩

/-- Out-edges of a state are pairwise non-overlapping: the intersection of
the labels of any two distinct outgoing edges is the empty character set. -/
def outedgesDisjoint (st : EState α) : Prop :=
  st.outedges.Pairwise (fun e f => ∀ la lb, e.2 = some la → f.2 = some lb →
    ∀ ch, litMem ch (litAnd la lb) = false)

theorem pairLabels_outedges {v : List (Nat × Lit)} (h : pairLabels v) (acc : Option α) :
    outedgesDisjoint (⟨v.map (fun e => (e.1, some e.2)), acc⟩ : EState α) := by
  show (v.map (fun e => (e.1, some e.2))).Pairwise _
  refine h.map _ ?_
  intro a b hab la lb hla hlb ch
  injection hla with hla
  injection hlb with hlb
  rw [← hla, ← hlb]
  exact litsDisj_and_false hab ch

theorem mapOpt_mem {f : κ → Option β} :
    ∀ {l : List κ} {res : List β}, mapOpt f l = some res → ∀ b ∈ res, ∃ a ∈ l, f a = some b := by
  intro l
  induction l with
  | nil =>
    intro res h b hb
    rw [mapOpt] at h
    cases h
    simp at hb
  | cons x xs ih =>
    intro res h b hb
    rw [mapOpt] at h
    cases hx : f x with
    | none => rw [hx] at h; cases h
    | some y =>
      rw [hx] at h
      cases hrec : mapOpt f xs with
      | none => rw [hrec] at h; cases h
      | some ys =>
        rw [hrec] at h
        cases h
        rcases List.mem_cons.mp hb with rfl | hb
        · exact ⟨x, List.mem_cons_self _ _, hx⟩
        · rcases ih hrec b hb with ⟨a, ha, hfa⟩
          exact ⟨a, List.mem_cons_of_mem _ ha, hfa⟩

/-- Claim C2: for every automaton returned by `convert_enfa_to_dfa` or by
`minimize_enfa`, every state (in particular every state reachable from the
initial state — the construction only creates reachable states) has
pairwise disjoint outgoing labels: the intersection of the labels of any
two distinct outgoing edges is the empty character set. -/
theorem claim_C2 [DecidableEq α] (combine : α → α → α) (fuel : Nat) (enfa : Fa α) :
    (∀ d, convert_enfa_to_dfa combine fuel enfa = some d →
      ∀ st ∈ d.states, outedgesDisjoint st)
    ∧ (∀ d, minimize_enfa combine fuel enfa = some d →
      ∀ st ∈ d.states, outedgesDisjoint st) := by
  have hconv : ∀ d, convert_enfa_to_dfa combine fuel enfa = some d →
      ∀ st ∈ d.states, outedgesDisjoint st := by
    intro d h st hst
    cases hcl : convertLoop enfa fuel fuel [epsClosure enfa enfa.initial]
        [epsClosure enfa enfa.initial] [] with
    | none => rw [convert_enfa_to_dfa, hcl] at h; cases h
    | some r =>
      rw [convert_enfa_to_dfa, hcl] at h
      cases h
      rcases List.mem_map.mp hst with ⟨key, hkey, rfl⟩
      cases hal : alookup r.2 ((posOf r.1 key).getD 0) with
      | none => exact List.Pairwise.nil
      | some v =>
        have hv : pairLabels v :=
          convertLoop_inv enfa fuel fuel _ _ _ r hcl (by intro a ha; simp at ha) _
            (alookup_mem hal)
        exact pairLabels_outedges hv (combineAccepts combine enfa key)
  refine ⟨hconv, ?_⟩
  intro d h st hst
  rw [minimize_enfa] at h
  split at h
  · exact Option.noConfusion h
  next fa hfa =>
    split at h
    · exact Option.noConfusion h
    next partition hpart =>
      split at h
      · exact Option.noConfusion h
      next sts hsts =>
        split at h
        · exact Option.noConfusion h
        next i0 hi0 =>
          cases h
          rcases mapOpt_mem hsts st hst with ⟨cls, hcls, hqc⟩
          rw [quotientClass] at hqc
          split at hqc
          · exact Option.noConfusion hqc
          next ys hg =>
            split at hqc
            · exact Option.noConfusion hqc
            next tm hq =>
              cases hqc
              exact pairLabels_outedges
                (quotTm_pairwise partition ys tm hq (gmcs_pairwise fuel _ _ hg))
                (acceptOf fa (cls.headD 0))

theorem claim_C2_witness :
    outedgesDisjoint
      (⟨[(1, some ⟨[97], false⟩), (1, some ⟨[98], false⟩)], (none : Option Nat)⟩ : EState Nat) :=
  (claim_C2 Nat.min 100 enfaC1).1
    ⟨[⟨[(1, some ⟨[97], false⟩), (1, some ⟨[98], false⟩)], none⟩, ⟨[], some 0⟩], [0]⟩
    (by rfl)
    ⟨[(1, some ⟨[97], false⟩), (1, some ⟨[98], false⟩)], none⟩
    (List.mem_cons_self _ _)

theorem claim_C9_witness :
    ((make_dfa_from_literal [97] (5 : Nat)).states.length = [97].length + 1)
    ∧ ((make_dfa_from_literal [97] (5 : Nat)).states.get? 0 =
        some ⟨[(0 + 1, some ⟨[[97].getD 0 0], false⟩)], none⟩)
    ∧ (faAccepts (make_dfa_from_literal [97] (5 : Nat)) [97] 5 = true ↔ [97] = [97]) :=
  ⟨(claim_C9 [97] 5).1, (claim_C9 [97] 5).2.2.1 0 (by decide), (claim_C9 [97] 5).2.2.2.2 [97]⟩

/- ---------------------------------------------------------------------
   `first.py`: the FIRST_k table.

   Sets of words are lists with insert-if-absent (`set.add`); the table is
   a function from symbols to such lists, with entries for non-left
   symbols fixed at the empty set (the Python dict has keys exactly the
   non-terminals, and `__call__` tests `symbol not in self.table`).
   --------------------------------------------------------------------- -/

structure Rule (σ : Type) where
  left : σ
  right : List σ
deriving DecidableEq, Repr

/-- The non-terminals of a grammar: symbols standing on the left of some
rule (membership is all that is ever used). -/
def nonterms (g : List (Rule σ)) : List σ := g.map (fun r => r.left)

def insertWord [DecidableEq σ] (w : List σ) (s : List (List σ)) : List (List σ) :=
  if w ∈ s then s else s ++ [w]

/-- `first.oplus`: `{ FIRST_k(vw) | v in left, w in right }` together with
the length of its shortest member (`k` when the set is empty). -/
def oplus [DecidableEq σ] (left right : List (List σ)) (k : Nat) : List (List σ) × Nat :=
  left.foldl
    (fun acc l =>
      right.foldl
        (fun (acc : List (List σ) × Nat) r =>
          (insertWord ((l ++ r).take k) acc.1,
           if ((l ++ r).take k).length < acc.2 then ((l ++ r).take k).length else acc.2))
        acc)
    ([], k)

/-- The loop of `First.__call__`, with the short-circuit on `c == k`. -/
def firstCall [DecidableEq σ] (nt : List σ) (table : σ → List (List σ)) (k : Nat) :
    List σ → List (List σ) → List (List σ)
  | [], res => res
  | sym :: word, res =>
    if (oplus res (if sym ∈ nt then table sym else [[sym]]) k).2 = k then
      (oplus res (if sym ∈ nt then table sym else [[sym]]) k).1
    else
      firstCall nt table k word (oplus res (if sym ∈ nt then table sym else [[sym]]) k).1

/-- `First.__call__`: `FIRST_k(word)` with respect to the table. -/
def firstF [DecidableEq σ] (nt : List σ) (table : σ → List (List σ)) (k : Nat)
    (word : List σ) : List (List σ) :=
  firstCall nt table k word [[]]

/-- One rule of a table-filling pass: each word of `first(rule.right)` —
computed with the table as it stood at the start of the rule — is added to
the entry of `rule.left` unless already present; the flag records whether
anything was added. -/
def firstPassRule [DecidableEq σ] (nt : List σ) (k : Nat) (t : σ → List (List σ))
    (r : Rule σ) : (σ → List (List σ)) × Bool :=
  (firstF nt t k r.right).foldl
    (fun (acc : (σ → List (List σ)) × Bool) w =>
      if w ∈ acc.1 r.left then acc
      else ((fun s => if s = r.left then acc.1 s ++ [w] else acc.1 s), true))
    (t, false)

/-- One full pass of `First.__init__` over all rules. -/
def firstPass [DecidableEq σ] (nt : List σ) (k : Nat) :
    List (Rule σ) → (σ → List (List σ)) → ((σ → List (List σ)) × Bool)
  | [], t => (t, false)
  | r :: rs, t =>
    ((firstPass nt k rs (firstPassRule nt k t r).1).1,
     (firstPassRule nt k t r).2 || (firstPass nt k rs (firstPassRule nt k t r).1).2)

/-- The `while not done` fixed-point loop of `First.__init__`. -/
def firstIter [DecidableEq σ] (nt : List σ) (k : Nat) (rules : List (Rule σ)) :
    Nat → (σ → List (List σ)) → Option (σ → List (List σ))
  | 0, _ => none
  | fuel + 1, t =>
    if (firstPass nt k rules t).2 then firstIter nt k rules fuel (firstPass nt k rules t).1
    else some (firstPass nt k rules t).1

/-- `First(grammar, k)`: construct the FIRST_k table, starting from empty
entries. -/
def firstConstruct [DecidableEq σ] (g : List (Rule σ)) (k fuel : Nat) :
    Option (σ → List (List σ)) :=
  firstIter (nonterms g) k g fuel (fun _ => [])

theorem firstFold_flag [DecidableEq σ] {r : Rule σ} :
    ∀ (ws : List (List σ)) (acc : (σ → List (List σ)) × Bool), acc.2 = true →
      (ws.foldl
        (fun (acc : (σ → List (List σ)) × Bool) w =>
          if w ∈ acc.1 r.left then acc
          else ((fun s => if s = r.left then acc.1 s ++ [w] else acc.1 s), true))
        acc).2 = true := by
  intro ws
  induction ws with
  | nil => intro acc h; exact h
  | cons w ws ih =>
    intro acc h
    rw [List.foldl_cons]
    by_cases hw : w ∈ acc.1 r.left
    · rw [if_pos hw]
      exact ih acc h
    · rw [if_neg hw]
      exact ih _ rfl

theorem firstPassRule_false [DecidableEq σ] {nt : List σ} {k : Nat}
    {t : σ → List (List σ)} {r : Rule σ} (h : (firstPassRule nt k t r).2 = false) :
    (firstPassRule nt k t r).1 = t ∧ ∀ w ∈ firstF nt t k r.right, w ∈ t r.left := by
  rw [firstPassRule] at h ⊢
  have main : ∀ (ws : List (List σ)),
      ((ws.foldl
        (fun (acc : (σ → List (List σ)) × Bool) w =>
          if w ∈ acc.1 r.left then acc
          else ((fun s => if s = r.left then acc.1 s ++ [w] else acc.1 s), true))
        (t, false)).2 = false) →
      ((ws.foldl
        (fun (acc : (σ → List (List σ)) × Bool) w =>
          if w ∈ acc.1 r.left then acc
          else ((fun s => if s = r.left then acc.1 s ++ [w] else acc.1 s), true))
        (t, false)).1 = t ∧ ∀ w ∈ ws, w ∈ t r.left) := by
    intro ws
    induction ws with
    | nil => intro _; exact ⟨rfl, by intro w hw; simp at hw⟩
    | cons w ws ih =>
      intro hf
      rw [List.foldl_cons] at hf ⊢
      by_cases hw : w ∈ t r.left
      · rw [if_pos hw] at hf ⊢
        rcases ih hf with ⟨h1, h2⟩
        refine ⟨h1, ?_⟩
        intro w' hw'
        rcases List.mem_cons.mp hw' with rfl | hw'
        · exact hw
        · exact h2 w' hw'
      · rw [if_neg hw] at hf
        rw [firstFold_flag ws _ rfl] at hf
        cases hf
  exact main _ h

theorem firstPass_false [DecidableEq σ] {nt : List σ} {k : Nat} :
    ∀ (rules : List (Rule σ)) (t : σ → List (List σ)),
      (firstPass nt k rules t).2 = false →
      (firstPass nt k rules t).1 = t
      ∧ ∀ r ∈ rules, ∀ w ∈ firstF nt t k r.right, w ∈ t r.left := by
  intro rules
  induction rules with
  | nil => intro t _; exact ⟨rfl, by intro r hr; simp at hr⟩
  | cons r rs ih =>
    intro t h
    rw [firstPass] at h ⊢
    simp only [Bool.or_eq_false_iff] at h
    rcases h with ⟨h1, h2⟩
    rcases firstPassRule_false h1 with ⟨he, hprop⟩
    rw [he] at h2 ⊢
    rcases ih t h2 with ⟨he2, hprop2⟩
    refine ⟨he2, ?_⟩
    intro r' hr'
    rcases List.mem_cons.mp hr' with rfl | hr'
    · exact hprop
    · exact hprop2 r' hr'

theorem firstIter_fix [DecidableEq σ] {nt : List σ} {k : Nat} {rules : List (Rule σ)} :
    ∀ (fuel : Nat) (t0 t : σ → List (List σ)),
      firstIter nt k rules fuel t0 = some t →
      ∀ r ∈ rules, ∀ w ∈ firstF nt t k r.right, w ∈ t r.left := by
  intro fuel
  induction fuel with
  | zero => intro t0 t h; rw [firstIter] at h; cases h
  | succ f ih =>
    intro t0 t h
    rw [firstIter] at h
    by_cases hp : (firstPass nt k rules t0).2 = true
    · rw [if_pos hp] at h
      exact ih _ _ h
    · rw [if_neg hp] at h
      cases h
      rcases firstPass_false rules t0 (Bool.eq_false_iff.mpr hp) with ⟨he, hprop⟩
      rw [he]
      exact hprop

/-- Claim C5: once `First(grammar, k)` has finished its fixed-point
construction, for every rule `A → α` of the grammar every k-prefix tuple
in `first(α)` is a member of the table entry for `A`; and `first` of the
empty word is exactly the set `{()}`. -/
theorem claim_C5 [DecidableEq σ] (g : List (Rule σ)) (k fuel : Nat)
    (t : σ → List (List σ)) (h : firstConstruct g k fuel = some t) :
    (∀ r ∈ g, ∀ w ∈ firstF (nonterms g) t k r.right, w ∈ t r.left)
    ∧ firstF (nonterms g) t k [] = [[]] :=
  ⟨firstIter_fix fuel _ t h, rfl⟩

def gW5 : List (Rule Nat) := [⟨0, []⟩, ⟨0, [0, 1]⟩]

def tW5 : Nat → List (List Nat) := (firstConstruct gW5 1 5).get (by rfl)

theorem claim_C5_witness :
    (∀ r ∈ gW5, ∀ w ∈ firstF (nonterms gW5) tW5 1 r.right, w ∈ tW5 r.left)
    ∧ firstF (nonterms gW5) tW5 1 [] = [[]] :=
  claim_C5 gW5 1 5 tW5 (Option.some_get _).symm

/- ---------------------------------------------------------------------
   `lrparser.py`: LR(k) table construction.

   The augmented grammar lives over `Option σ`: `none` is the sentinel
   left-hand side `''` of the synthetic rule, distinct from every user
   symbol.  Items refer to rules by their index in the augmented rule
   list, which models Python's identity-based rule hashing (grammars with
   two entirely identical rules are out of scope).  The FIRST table used
   here is `firstConstruct` above; the package `src/limecc` ships no
   `first.py` of its own, and `src/first.py` (embedded above) implements
   exactly the fixed point described for FIRST_k, so it stands in for the
   missing module (with `nonterms=False`, the only mode our instances
   use).
   --------------------------------------------------------------------- -/

structure LItem (τ : Type) where
  rule : Nat
  index : Nat
  la : List τ
deriving DecidableEq, Repr

/-- `grammar.rules(sym)` as rule indices; `sym = none` is Python `None`
(the "no next token" marker), which is not a key of the rule cache. -/
def rulesOf [DecidableEq τ] (rules : List (Rule τ)) : Option τ → List Nat
  | none => []
  | some s => (rules.enum.filter (fun p => p.2.left = s)).map (fun p => p.1)

/-- `_next_token`: the symbol after the dot, if any. -/
def nextToken (rules : List (Rule τ)) (it : LItem τ) : Option τ :=
  match rules.get? it.rule with
  | none => none
  | some r => r.right.get? it.index

/-- New closure items contributed by one item: for every lookahead in
`first(rule_suffix + lookahead)` and every rule of the symbol after the
dot, the initial item of that rule. -/
def closeStep [DecidableEq τ] (rules : List (Rule τ)) (nt : List τ)
    (table : τ → List (List τ)) (k : Nat) (cur : LItem τ) : List (LItem τ) :=
  (firstF nt table k
      ((match rules.get? cur.rule with
        | none => []
        | some r => r.right.drop (cur.index + 1)) ++ cur.la)).flatMap
    (fun la => (rulesOf rules (nextToken rules cur)).map (fun ri => (⟨ri, 0, la⟩ : LItem τ)))

/-- Sequential append of the candidates not already present. -/
def addNew [DecidableEq τ] (itemlist : List (LItem τ)) (cands : List (LItem τ)) :
    List (LItem τ) :=
  cands.foldl (fun acc c => if c ∈ acc then acc else acc ++ [c]) itemlist

/-- The closure worklist of `State._close`. -/
def closeLoop [DecidableEq τ] (rules : List (Rule τ)) (nt : List τ)
    (table : τ → List (List τ)) (k : Nat) : Nat → List (LItem τ) → Nat →
    Option (List (LItem τ))
  | 0, _, _ => none
  | fuel + 1, itemlist, i =>
    match itemlist.get? i with
    | none => some itemlist
    | some cur =>
      closeLoop rules nt table k fuel (addNew itemlist (closeStep rules nt table k cur)) (i + 1)

structure LState (τ : Type) where
  kernel : List (LItem τ)
  itemlist : List (LItem τ)
  gotoT : List (τ × Nat)
  parentId : Option Nat
  parentSym : Option τ
deriving DecidableEq, Repr

/-- Successor kernels of a state, grouped by the symbol after the dot. -/
def partsOf [DecidableEq τ] (rules : List (Rule τ)) (itemlist : List (LItem τ)) :
    List (τ × List (LItem τ)) :=
  itemlist.foldl
    (fun acc it =>
      match nextToken rules it with
      | none => acc
      | some sym =>
        match alookup acc sym with
        | none => acc ++ [(sym, [(⟨it.rule, it.index + 1, it.la⟩ : LItem τ)])]
        | some part => aset acc sym (part ++ [(⟨it.rule, it.index + 1, it.la⟩ : LItem τ)]))
    []

/-- Kernels are canonicalized by content: Python keys the state map by
`frozenset(kernel)`. -/
def kernelEq [DecidableEq τ] (a b : List (LItem τ)) : Bool :=
  a.all (fun x => decide (x ∈ b)) && b.all (fun x => decide (x ∈ a))

def findKernel [DecidableEq τ] (states : List (LState τ)) (kernel : List (LItem τ)) :
    Option Nat :=
  (states.enum.find? (fun p => kernelEq p.2.kernel kernel)).map (fun p => p.1)

def modifyAt : List β → Nat → (β → β) → List β
  | [], _, _ => []
  | x :: xs, 0, f => f x :: xs
  | x :: xs, n + 1, f => x :: modifyAt xs n f

/-- Process the successor kernels of state `i`: link `goto` entries to
existing states (compared as kernel sets) and append fresh states with
their closures and parent back-pointers. -/
def extendStates [DecidableEq τ] (rules : List (Rule τ)) (nt : List τ)
    (table : τ → List (List τ)) (k cfuel i : Nat) :
    List (τ × List (LItem τ)) → List (LState τ) → Option (List (LState τ))
  | [], states => some states
  | (sym, kernel) :: ps, states =>
    match findKernel states kernel with
    | some idx =>
      extendStates rules nt table k cfuel i ps
        (modifyAt states i (fun st => { st with gotoT := st.gotoT ++ [(sym, idx)] }))
    | none =>
      match closeLoop rules nt table k cfuel kernel 0 with
      | none => none
      | some il =>
        extendStates rules nt table k cfuel i ps
          ((modifyAt states i (fun st => { st with gotoT := st.gotoT ++ [(sym, states.length)] }))
            ++ [⟨kernel, il, [], some i, some sym⟩])

/-- The state-construction worklist (`while i < len(states)`). -/
def buildStates [DecidableEq τ] (rules : List (Rule τ)) (nt : List τ)
    (table : τ → List (List τ)) (k cfuel : Nat) : Nat → List (LState τ) → Nat →
    Option (List (LState τ))
  | 0, _, _ => none
  | fuel + 1, states, i =>
    match states.get? i with
    | none => some states
    | some st =>
      match extendStates rules nt table k cfuel i (partsOf rules st.itemlist) states with
      | none => none
      | some states' => buildStates rules nt table k cfuel fuel states' (i + 1)

/-- `ActionConflictError.counterexample`: walk the parent pointers while
`st.parent_id` is truthy (not `None` and not `0`), collecting the parent
symbols, then append the symbol of the state where the walk stopped. -/
def cxWalk (states : List (LState τ)) : Nat → Nat → List (Option τ)
  | 0, _ => []
  | fuel + 1, sid =>
    match states.get? sid with
    | none => []
    | some st =>
      match st.parentId with
      | none => [st.parentSym]
      | some pid =>
        if pid = 0 then [st.parentSym] else st.parentSym :: cxWalk states fuel pid

def counterexampleOf (states : List (LState τ)) (sid : Nat) : List (Option τ) :=
  (cxWalk states (states.length + 1) sid).reverse

structure ConflictInfo (τ : Type) where
  srConflict : Bool
  stateId : Nat
  item1 : Nat
  item2 : Nat
  cx : List (Option τ)
deriving DecidableEq, Repr

inductive LrErr (τ : Type)
  | conflict (info : ConflictInfo τ)
  | invalidGrammar
  | assertNoAccept
  | fuelOut
deriving DecidableEq, Repr

/-- `add_action`: record an action for a lookahead, detecting conflicts.
On a repeated identical action the origin is overwritten with the new
item index, as in the source. -/
def addAction [DecidableEq τ] (acc : List (List τ × Option Nat) × List (List τ × Nat))
    (la : List τ) (act : Option Nat) (idx : Nat) :
    Except (Bool × Nat × Nat) (List (List τ × Option Nat) × List (List τ × Nat)) :=
  match alookup acc.1 la with
  | some old =>
    if old ≠ act then
      Except.error (old.isNone || act.isNone, idx, (alookup acc.2 la).getD 0)
    else
      Except.ok (aset acc.1 la act, aset acc.2 la idx)
  | none => Except.ok (acc.1 ++ [(la, act)], acc.2 ++ [(la, idx)])

/-- Action entries contributed by one item of one state. -/
def itemActions [DecidableEq τ] (rules : List (Rule τ)) (nt : List τ)
    (table : τ → List (List τ)) (k : Nat) (sentinel : τ)
    (acc : List (List τ × Option Nat) × List (List τ × Nat)) (idx : Nat) (it : LItem τ) :
    Except (Bool × Nat × Nat) (List (List τ × Option Nat) × List (List τ × Nat)) :=
  match nextToken rules it with
  | none =>
    match rules.get? it.rule with
    | none => Except.ok acc
    | some r =>
      if r.left = sentinel then addAction acc it.la none idx
      else addAction acc it.la (some it.rule) idx
  | some sym =>
    if sym ∈ nt then Except.ok acc
    else
      (firstF nt table k (((match rules.get? it.rule with
          | none => []
          | some r => r.right.drop it.index) ++ it.la).drop 1)).foldl
        (fun eacc w =>
          match eacc with
          | Except.error e => Except.error e
          | Except.ok acc =>
            addAction acc
              ((((match rules.get? it.rule with
                  | none => []
                  | some r => r.right.drop it.index) ++ it.la).take 1 ++ w).take k)
              none idx)
        (Except.ok acc)

structure PState (τ : Type) where
  action : List (List τ × Option Nat)
  gotoT : List (τ × Nat)
deriving DecidableEq, Repr

structure Parser (τ : Type) where
  states : List (PState τ)
  accepting : Nat
deriving DecidableEq, Repr

/-- Actions of one state: fold `add_action` over the item list, also
reporting whether this state is the accepting one (a final item of the
sentinel rule). -/
def stateActions [DecidableEq τ] (rules : List (Rule τ)) (nt : List τ)
    (table : τ → List (List τ)) (k : Nat) (sentinel : τ) (st : LState τ) :
    Except (Bool × Nat × Nat) (List (List τ × Option Nat) × Bool) :=
  match st.itemlist.enum.foldl
      (fun eacc p =>
        match eacc with
        | Except.error e => Except.error e
        | Except.ok acc => itemActions rules nt table k sentinel acc p.1 p.2)
      (Except.ok ([], [])) with
  | Except.error e => Except.error e
  | Except.ok acc =>
    Except.ok (acc.1, st.itemlist.any (fun it =>
      (nextToken rules it).isNone && decide ((rules.get? it.rule).any (fun r => r.left = sentinel))))

/-- The action/goto assignment loop over all states, in order; the first
conflicting `add_action` aborts with an `ActionConflictError` carrying the
conflicting state, the two item indices and the reconstructed
counterexample. -/
def buildActions [DecidableEq τ] (rules : List (Rule τ)) (nt : List τ)
    (table : τ → List (List τ)) (k : Nat) (sentinel : τ) (states : List (LState τ)) :
    Except (LrErr τ) (List (PState τ) × Option Nat) :=
  states.enum.foldl
    (fun eacc p =>
      match eacc with
      | Except.error e => Except.error e
      | Except.ok acc =>
        match stateActions rules nt table k sentinel p.2 with
        | Except.error (sr, i1, i2) =>
          Except.error (LrErr.conflict ⟨sr, p.1, i1, i2, counterexampleOf states p.1⟩)
        | Except.ok (action, isAcc) =>
          Except.ok (acc.1 ++ [(⟨action, p.2.gotoT⟩ : PState τ)],
            if isAcc then some p.1 else acc.2))
    (Except.ok ([], none))

/-- `make_lrparser` / `_LrParser.__init__` (with `sentential_forms`
false and `keep_states` irrelevant to the tables): augment the grammar
with the sentinel rule, build the FIRST_k table, the canonical LR(k)
states and the action/goto tables. -/
def make_lrparser [DecidableEq σ] (g : List (Rule σ)) (root : Option (List σ))
    (k fuel : Nat) : Except (LrErr (Option σ)) (Parser (Option σ)) :=
  if g.isEmpty then Except.error LrErr.invalidGrammar
  else
    match root with
    | some r =>
      if r.all (fun sym => decide (sym ∈ nonterms g ∨ sym ∈ g.flatMap (fun ru => ru.right)))
      then make_lrparser_checked g (r.map some) k fuel
      else Except.error LrErr.invalidGrammar
    | none =>
      match g.head? with
      | none => Except.error LrErr.invalidGrammar
      | some r0 => make_lrparser_checked g [some r0.left] k fuel
where
  make_lrparser_checked (g : List (Rule σ)) (rootSyms : List (Option σ)) (k fuel : Nat) :
      Except (LrErr (Option σ)) (Parser (Option σ)) :=
    match firstConstruct
        ((⟨none, rootSyms⟩ : Rule (Option σ)) ::
          g.map (fun r => (⟨some r.left, r.right.map some⟩ : Rule (Option σ)))) k fuel with
    | none => Except.error LrErr.fuelOut
    | some table =>
      match closeLoop
          ((⟨none, rootSyms⟩ : Rule (Option σ)) ::
            g.map (fun r => (⟨some r.left, r.right.map some⟩ : Rule (Option σ))))
          (nonterms ((⟨none, rootSyms⟩ : Rule (Option σ)) ::
            g.map (fun r => (⟨some r.left, r.right.map some⟩ : Rule (Option σ)))))
          table k fuel [⟨0, 0, []⟩] 0 with
      | none => Except.error LrErr.fuelOut
      | some il0 =>
        match buildStates
            ((⟨none, rootSyms⟩ : Rule (Option σ)) ::
              g.map (fun r => (⟨some r.left, r.right.map some⟩ : Rule (Option σ))))
            (nonterms ((⟨none, rootSyms⟩ : Rule (Option σ)) ::
              g.map (fun r => (⟨some r.left, r.right.map some⟩ : Rule (Option σ)))))
            table k fuel fuel [⟨[⟨0, 0, []⟩], il0, [], none, none⟩] 0 with
        | none => Except.error LrErr.fuelOut
        | some states =>
          match buildActions
              ((⟨none, rootSyms⟩ : Rule (Option σ)) ::
                g.map (fun r => (⟨some r.left, r.right.map some⟩ : Rule (Option σ))))
              (nonterms ((⟨none, rootSyms⟩ : Rule (Option σ)) ::
                g.map (fun r => (⟨some r.left, r.right.map some⟩ : Rule (Option σ)))))
              table k (none : Option σ) states with
          | Except.error e => Except.error e
          | Except.ok (pstates, acc) =>
            match acc with
            | none => Except.error LrErr.assertNoAccept
            | some a => Except.ok ⟨pstates, a⟩

/- ---------------------------------------------------------------------
   Claim C8: the LR(0) conflict for `list → ε | list item; root → header
   list`.  Symbols: list = 0, item = 1, root = 2, header = 3.
   --------------------------------------------------------------------- -/

def g8 : List (Rule Nat) := [⟨0, []⟩, ⟨0, [0, 1]⟩, ⟨2, [3, 0]⟩]

/-- Claim C8, counterexample: constructing the LR(0) parser for
`list → ε | list item; root → header list` with root `root` does raise a
shift/reduce conflict, but the counterexample reconstructed by
`ActionConflictError.counterexample` is the goto path `[header, list]`
(symbols 3, 0) to the conflicting state — not `[header, item]`
(symbols 3, 1) as the claim states. -/
theorem claim_C8_counterexample :
    make_lrparser g8 (some [2]) 0 100 =
      Except.error (LrErr.conflict ⟨true, 3, 1, 0, [some (some 3), some (some 0)]⟩)
    ∧ [some (some 3), some (some 0)] ≠ [some (some 3), some (some (1 : Nat))] := by
  refine ⟨by rfl, by decide⟩

/-- Claim C8 as amended: constructing the LR(0) parser for
`list → ε | list item; root → header list` with root `root` raises a
shift/reduce conflict error whose reconstructed counterexample is the
symbol sequence `[header, list]` (the goto path from state 0 to the
conflicting state). -/
theorem claim_C8_amended :
    ∃ info : ConflictInfo (Option Nat),
      make_lrparser g8 (some [2]) 0 100 = Except.error (LrErr.conflict info)
      ∧ info.srConflict = true
      ∧ info.cx = [some (some 3), some (some 0)] :=
  ⟨⟨true, 3, 1, 0, [some (some 3), some (some 0)]⟩, by rfl, rfl, rfl⟩

/- ---------------------------------------------------------------------
   `_LrParser.parse`.

   Tokens are `(symbol, value)` pairs, matching the default
   `extract_symbol` / `extract_value` for tuples.  The lookahead buffer of
   the source (filled to `k` tokens and popped on shift) is equivalent,
   over a list input, to reading `take k` of the remaining input and
   consuming one token per shift; for `k = 0` the buffer is always empty,
   so a missing action entry always trips the source's `assert lookahead`.
   Semantic actions live on `PRule` values (`rule.action(ctx, *args)`,
   with the context folded into the function).
   --------------------------------------------------------------------- -/

structure PRule (τ V : Type) where
  left : τ
  arity : Nat
  act : List V → V

structure PCfg (τ V : Type) where
  stack : List Nat
  asts : List V
  input : List (τ × V)

inductive ParseOut (V : Type)
  | ok (v : V)
  | unexpectedToken
  | prematureEOF
  | assertError
  | fuelOut
deriving DecidableEq, Repr

inductive StepRes (τ V : Type)
  | cont (c : PCfg τ V)
  | done (o : ParseOut V)

/-- One iteration of the `while True` loop of `parse`. -/
def parseStep [DecidableEq τ] (p : Parser τ) (rules : List (PRule τ V)) (k : Nat)
    (cfg : PCfg τ V) : StepRes τ V :=
  match p.states.get? (cfg.stack.headD 0) with
  | none => StepRes.done ParseOut.assertError
  | some st =>
    match alookup st.action ((cfg.input.take k).map Prod.fst) with
    | none =>
      if (cfg.input.take k).isEmpty then StepRes.done ParseOut.assertError
      else StepRes.done ParseOut.unexpectedToken
    | some (some ri) =>
      match rules.get? ri with
      | none => StepRes.done ParseOut.assertError
      | some r =>
        match cfg.stack.drop r.arity with
        | [] => StepRes.done ParseOut.assertError
        | top :: stack' =>
          match p.states.get? top with
          | none => StepRes.done ParseOut.assertError
          | some st2 =>
            match alookup st2.gotoT r.left with
            | none => StepRes.done ParseOut.assertError
            | some ns =>
              StepRes.cont ⟨ns :: top :: stack',
                r.act (cfg.asts.take r.arity).reverse :: cfg.asts.drop r.arity, cfg.input⟩
    | some none =>
      match cfg.input with
      | [] =>
        if cfg.stack.headD 0 = p.accepting then
          match cfg.asts with
          | [v] => StepRes.done (ParseOut.ok v)
          | _ => StepRes.done ParseOut.assertError
        else StepRes.done ParseOut.prematureEOF
      | tok :: rest =>
        match alookup st.gotoT tok.1 with
        | none => StepRes.done ParseOut.unexpectedToken
        | some ns => StepRes.cont ⟨ns :: cfg.stack, tok.2 :: cfg.asts, rest⟩

def parseLoop [DecidableEq τ] (p : Parser τ) (rules : List (PRule τ V)) (k : Nat) :
    Nat → PCfg τ V → ParseOut V
  | 0, _ => ParseOut.fuelOut
  | fuel + 1, cfg =>
    match parseStep p rules k cfg with
    | StepRes.cont c => parseLoop p rules k fuel c
    | StepRes.done o => o

def initCfg (toks : List (τ × V)) : PCfg τ V := ⟨[0], [], toks⟩

/-- `parse`: run the loop from `stack = [0]`, `asts = []`. -/
def parseLr [DecidableEq τ] (p : Parser τ) (rules : List (PRule τ V)) (k fuel : Nat)
    (toks : List (τ × V)) : ParseOut V :=
  parseLoop p rules k fuel (initCfg toks)

/-- `n` non-terminating iterations of the loop. -/
def stepN [DecidableEq τ] (p : Parser τ) (rules : List (PRule τ V)) (k : Nat) :
    Nat → PCfg τ V → Option (PCfg τ V)
  | 0, c => some c
  | n + 1, c =>
    match parseStep p rules k c with
    | StepRes.cont c' => stepN p rules k n c'
    | StepRes.done _ => none

theorem parseLoop_iff [DecidableEq τ] (p : Parser τ) (rules : List (PRule τ V)) (k : Nat)
    {o : ParseOut V} (ho : o ≠ ParseOut.fuelOut) :
    ∀ (fuel : Nat) (cfg : PCfg τ V),
      parseLoop p rules k fuel cfg = o ↔
        ∃ n c, n < fuel ∧ stepN p rules k n cfg = some c ∧
          parseStep p rules k c = StepRes.done o := by
  intro fuel
  induction fuel with
  | zero =>
    intro cfg
    rw [parseLoop]
    constructor
    · intro h; exact absurd h.symm ho
    · rintro ⟨n, c, hn, _, _⟩; omega
  | succ f ih =>
    intro cfg
    rw [parseLoop]
    cases hs : parseStep p rules k cfg with
    | done o' =>
      constructor
      · intro h
        cases h
        exact ⟨0, cfg, Nat.succ_pos f, rfl, hs⟩
      · rintro ⟨n, c, hn, hsn, hdone⟩
        cases n with
        | zero =>
          cases hsn
          rw [hs] at hdone
          cases hdone
          rfl
        | succ n' =>
          rw [stepN, hs] at hsn
          cases hsn
    | cont c' =>
      rw [ih c']
      constructor
      · rintro ⟨n, c, hn, hsn, hdone⟩
        refine ⟨n + 1, c, by omega, ?_, hdone⟩
        rw [stepN, hs]
        exact hsn
      · rintro ⟨n, c, hn, hsn, hdone⟩
        cases n with
        | zero =>
          cases hsn
          rw [hs] at hdone
          cases hdone
        | succ n' =>
          rw [stepN, hs] at hsn
          exact ⟨n', c, by omega, hsn, hdone⟩

theorem parseStep_premature_iff [DecidableEq τ] (p : Parser τ) (rules : List (PRule τ V))
    (k : Nat) (c : PCfg τ V) :
    parseStep p rules k c = StepRes.done ParseOut.prematureEOF ↔
      (c.input = [] ∧ c.stack.headD 0 ≠ p.accepting ∧
        ∃ st, p.states.get? (c.stack.headD 0) = some st ∧ alookup st.action [] = some none) := by
  constructor
  · intro h
    rw [parseStep] at h
    cases hst : p.states.get? (c.stack.headD 0) with
    | none => simp only [hst] at h; simp at h
    | some st =>
      simp only [hst] at h
      cases hac : alookup st.action ((c.input.take k).map Prod.fst) with
      | none =>
        simp only [hac] at h
        by_cases he : (c.input.take k).isEmpty = true <;> simp [he] at h
      | some act =>
        simp only [hac] at h
        match act with
        | some ri =>
          cases hr : rules.get? ri with
          | none => simp only [hr] at h; simp at h
          | some r =>
            simp only [hr] at h
            cases hd : c.stack.drop r.arity with
            | nil => simp only [hd] at h; simp at h
            | cons top stack2 =>
              simp only [hd] at h
              cases hst2 : p.states.get? top with
              | none => simp only [hst2] at h; simp at h
              | some s2 =>
                simp only [hst2] at h
                cases hg : alookup s2.gotoT r.left with
                | none => simp only [hg] at h; simp at h
                | some ns => simp only [hg] at h; simp at h
        | none =>
          cases hin : c.input with
          | nil =>
            simp only [hin] at h
            by_cases hacc : c.stack.headD 0 = p.accepting
            · simp only [hacc, if_true] at h
              match hca : c.asts with
              | [] => simp only [hca] at h; simp at h
              | [v0] =>
                simp only [hca] at h
                simp at h
              | v0 :: w0 :: rest0 => simp only [hca] at h; simp at h
            · rw [if_neg hacc] at h
              rw [hin] at hac
              simp only [List.take_nil, List.map_nil] at hac
              exact ⟨rfl, hacc, st, rfl, hac⟩
          | cons tok rest =>
            simp only [hin] at h
            cases hg : alookup st.gotoT tok.1 with
            | none => simp only [hg] at h; simp at h
            | some ns => simp only [hg] at h; simp at h
  · rintro ⟨hin, hacc, st, hst, hac⟩
    have hkey : ((c.input.take k).map Prod.fst) = [] := by rw [hin]; simp
    have hacc2 : ¬(c.stack.head?.getD 0 = p.accepting) := by simpa using hacc
    rw [parseStep, hst]
    simp [hkey, hac, hin, hacc2]

theorem parseStep_ok_iff [DecidableEq τ] (p : Parser τ) (rules : List (PRule τ V))
    (k : Nat) (c : PCfg τ V) (v : V) :
    parseStep p rules k c = StepRes.done (ParseOut.ok v) ↔
      (c.input = [] ∧ c.stack.headD 0 = p.accepting ∧ c.asts = [v] ∧
        ∃ st, p.states.get? (c.stack.headD 0) = some st ∧ alookup st.action [] = some none) := by
  constructor
  · intro h
    rw [parseStep] at h
    cases hst : p.states.get? (c.stack.headD 0) with
    | none => simp only [hst] at h; simp at h
    | some st =>
      simp only [hst] at h
      cases hac : alookup st.action ((c.input.take k).map Prod.fst) with
      | none =>
        simp only [hac] at h
        by_cases he : (c.input.take k).isEmpty = true <;> simp [he] at h
      | some act =>
        simp only [hac] at h
        match act with
        | some ri =>
          cases hr : rules.get? ri with
          | none => simp only [hr] at h; simp at h
          | some r =>
            simp only [hr] at h
            cases hd : c.stack.drop r.arity with
            | nil => simp only [hd] at h; simp at h
            | cons top stack2 =>
              simp only [hd] at h
              cases hst2 : p.states.get? top with
              | none => simp only [hst2] at h; simp at h
              | some s2 =>
                simp only [hst2] at h
                cases hg : alookup s2.gotoT r.left with
                | none => simp only [hg] at h; simp at h
                | some ns => simp only [hg] at h; simp at h
        | none =>
          cases hin : c.input with
          | nil =>
            simp only [hin] at h
            by_cases hacc : c.stack.headD 0 = p.accepting
            · simp only [hacc, if_true] at h
              match hca : c.asts with
              | [] => simp only [hca] at h; simp at h
              | [v0] =>
                simp only [hca] at h
                injection h with h
                injection h with h
                subst h
                rw [hin] at hac
                simp only [List.take_nil, List.map_nil] at hac
                exact ⟨rfl, hacc, rfl, st, rfl, hac⟩
              | v0 :: w0 :: rest0 => simp only [hca] at h; simp at h
            · rw [if_neg hacc] at h
              rw [hin] at hac
              simp only [List.take_nil, List.map_nil] at hac
              simp at h
          | cons tok rest =>
            simp only [hin] at h
            cases hg : alookup st.gotoT tok.1 with
            | none => simp only [hg] at h; simp at h
            | some ns => simp only [hg] at h; simp at h
  · rintro ⟨hin, hacc, hca, st, hst, hac⟩
    have hkey : ((c.input.take k).map Prod.fst) = [] := by rw [hin]; simp
    have hacc2 : c.stack.head?.getD 0 = p.accepting := by simpa using hacc
    rw [parseStep, hst]
    simp [hkey, hac, hin, hacc2, hca]

/-- Claim C10: `parse` raises `PrematureEndOfFileError` exactly when the
run reaches a configuration whose token stream is exhausted, whose action
for the (empty) lookahead key is a shift, and whose current state is not
the accepting state; when the stream is exhausted in the accepting state
(with the single remaining semantic value on the value stack), `parse`
returns that value.  Stated for an arbitrary parser table, which covers
every conflict-free table built by `make_lrparser`. -/
theorem claim_C10 [DecidableEq τ] (p : Parser τ) (rules : List (PRule τ V))
    (k fuel : Nat) (toks : List (τ × V)) :
    (parseLr p rules k fuel toks = ParseOut.prematureEOF ↔
      ∃ n c, n < fuel ∧ stepN p rules k n (initCfg toks) = some c ∧
        c.input = [] ∧ c.stack.headD 0 ≠ p.accepting ∧
        ∃ st, p.states.get? (c.stack.headD 0) = some st ∧ alookup st.action [] = some none)
    ∧ (∀ v, parseLr p rules k fuel toks = ParseOut.ok v ↔
      ∃ n c, n < fuel ∧ stepN p rules k n (initCfg toks) = some c ∧
        c.input = [] ∧ c.stack.headD 0 = p.accepting ∧ c.asts = [v] ∧
        ∃ st, p.states.get? (c.stack.headD 0) = some st ∧ alookup st.action [] = some none) := by
  constructor
  · rw [parseLr, parseLoop_iff p rules k (by intro h; cases h) fuel (initCfg toks)]
    constructor
    · rintro ⟨n, c, hn, hsn, hstep⟩
      rcases (parseStep_premature_iff p rules k c).mp hstep with ⟨h1, h2, h3⟩
      exact ⟨n, c, hn, hsn, h1, h2, h3⟩
    · rintro ⟨n, c, hn, hsn, h1, h2, h3⟩
      exact ⟨n, c, hn, hsn, (parseStep_premature_iff p rules k c).mpr ⟨h1, h2, h3⟩⟩
  · intro v
    rw [parseLr, parseLoop_iff p rules k (by intro h; cases h) fuel (initCfg toks)]
    constructor
    · rintro ⟨n, c, hn, hsn, hstep⟩
      rcases (parseStep_ok_iff p rules k c v).mp hstep with ⟨h1, h2, h3, h4⟩
      exact ⟨n, c, hn, hsn, h1, h2, h3, h4⟩
    · rintro ⟨n, c, hn, hsn, h1, h2, h3, h4⟩
      exact ⟨n, c, hn, hsn, (parseStep_ok_iff p rules k c v).mpr ⟨h1, h2, h3, h4⟩⟩

/- ---------------------------------------------------------------------
   `lime_grammar.py`: accept labels of the lexer DFAs (claim C3).
   --------------------------------------------------------------------- -/

/-- `LexRegex` / `LexLiteral` token descriptions (equality is by
content, as in the source's `__eq__`). -/
inductive LexTok
  | regex (s : List Nat)
  | literal (s : List Nat)
deriving DecidableEq, Repr

/-- `_LexDfaAccept(token_id, prio, tokens)`; `tokens` is a frozenset,
modelled as a list with membership semantics. -/
structure LexDfaAccept where
  token_id : Nat
  prio : Nat
  tokens : List LexTok
deriving DecidableEq, Repr

inductive PyError
  | attributeError
deriving DecidableEq, Repr

/-- `combine_accept_labels`.  In the branch for distinct token ids of
equal priority the source executes `raise LexerConflictError(lhs.token,
rhs.token)`; `_LexDfaAccept` has no attribute `token` (only `tokens`), so
evaluating the arguments raises `AttributeError` instead of the intended
`LexerConflictError` — modelled as `PyError.attributeError`. -/
def combine_accept_labels (lhs rhs : LexDfaAccept) : Except PyError LexDfaAccept :=
  if lhs.token_id = rhs.token_id then
    Except.ok ⟨lhs.token_id, max lhs.prio rhs.prio,
      lhs.tokens ++ rhs.tokens.filter (fun t => decide (t ∉ lhs.tokens))⟩
  else if lhs.prio = rhs.prio then
    Except.error PyError.attributeError
  else Except.ok (if lhs.prio > rhs.prio then lhs else rhs)

/-- The accept label built by `process_token`: regex tokens get priority
0, literal tokens priority 1, and the origin set `{token}`. -/
def process_token_accept (token : LexTok) (token_id : Nat) : LexDfaAccept :=
  match token with
  | LexTok.regex _ => ⟨token_id, 0, [token]⟩
  | LexTok.literal _ => ⟨token_id, 1, [token]⟩

/-- Claim C3: the combine rule of the lexer accept labels.  Equal token
ids combine to the same id, the maximum priority and the union of the
origin sets; distinct ids of different priorities keep the
higher-priority label; literals get priority 1 and regexes priority 0.
But for distinct token ids of equal priority the code crashes with an
`AttributeError` (it reads the non-existent attribute `token` of
`_LexDfaAccept` while building the intended `LexerConflictError`), so no
lexer-conflict error carrying the origin token identities is raised. -/
theorem claim_C3_code_bug :
    (∀ (id p1 p2 : Nat) (t1 t2 : List LexTok),
      combine_accept_labels ⟨id, p1, t1⟩ ⟨id, p2, t2⟩ =
        Except.ok ⟨id, max p1 p2, t1 ++ t2.filter (fun t => decide (t ∉ t1))⟩
      ∧ ∀ x, (x ∈ t1 ++ t2.filter (fun t => decide (t ∉ t1))) ↔ (x ∈ t1 ∨ x ∈ t2))
    ∧ (∀ (p : Nat) (t1 t2 : List LexTok),
      combine_accept_labels ⟨0, p, t1⟩ ⟨1, p, t2⟩ = Except.error PyError.attributeError)
    ∧ (∀ (t1 t2 : List LexTok),
      combine_accept_labels ⟨0, 1, t1⟩ ⟨1, 0, t2⟩ = Except.ok ⟨0, 1, t1⟩
      ∧ combine_accept_labels ⟨0, 0, t1⟩ ⟨1, 1, t2⟩ = Except.ok ⟨1, 1, t2⟩)
    ∧ (∀ (s : List Nat) (id : Nat),
      process_token_accept (LexTok.literal s) id = ⟨id, 1, [LexTok.literal s]⟩
      ∧ process_token_accept (LexTok.regex s) id = ⟨id, 0, [LexTok.regex s]⟩) := by
  refine ⟨?_, ?_, ?_, ?_⟩
  · intro id p1 p2 t1 t2
    refine ⟨by simp [combine_accept_labels], ?_⟩
    intro x
    simp only [List.mem_append, List.mem_filter, decide_eq_true_eq]
    by_cases h1 : x ∈ t1 <;> by_cases h2 : x ∈ t2 <;> simp [h1, h2]
  · intro p t1 t2
    simp [combine_accept_labels]
  · intro t1 t2
    constructor <;> simp [combine_accept_labels]
  · intro s id
    exact ⟨rfl, rfl⟩

/- ---------------------------------------------------------------------
   `make_lime_parser`, context-lexer partitioning (claim C4).

   In a LIME grammar the terminals are the implicit-token ids (naturals);
   the admissible set of an LR state collects the terminal goto keys, all
   symbols of the action lookahead keys and the discard-token id.
   --------------------------------------------------------------------- -/

theorem posOf_get [DecidableEq κ] :
    ∀ {l : List κ} {k : κ} {i : Nat}, posOf l k = some i → l.get? i = some k := by
  intro l
  induction l with
  | nil => intro k i h; simp [posOf] at h
  | cons x rest ih =>
    intro k i h
    rw [posOf] at h
    by_cases hx : x = k
    · rw [if_pos hx] at h
      cases h
      simp [hx]
    · rw [if_neg hx] at h
      cases hp : posOf rest k with
      | none => rw [hp] at h; cases h
      | some j =>
        rw [hp] at h
        cases h
        simpa using ih hp

theorem posOf_none [DecidableEq κ] :
    ∀ {l : List κ} {k : κ}, posOf l k = none ↔ k ∉ l := by
  intro l
  induction l with
  | nil => intro k; simp [posOf]
  | cons x rest ih =>
    intro k
    rw [posOf]
    by_cases hx : x = k
    · simp [hx]
    · rw [if_neg hx]
      constructor
      · intro h hmem
        have hnone : posOf rest k = none := by
          cases hq : posOf rest k with
          | none => rfl
          | some j => rw [hq] at h; cases h
        rcases List.mem_cons.mp hmem with he | hmem
        · exact hx he.symm
        · exact (ih.mp hnone) hmem
      · intro h
        have hk : k ∉ rest := fun hm => h (List.mem_cons_of_mem _ hm)
        rw [ih.mpr hk]
        rfl

theorem get?_append_len {l : List β} {x : β} : (l ++ [x]).get? l.length = some x := by
  induction l with
  | nil => rfl
  | cons y ys ih => simpa using ih

structure CtxState (σ : Type) where
  gotoSyms : List σ
  actionKeys : List (List σ)
deriving DecidableEq, Repr

/-- `admissible(s)`: terminals among the goto keys, the discard id, and
every symbol of every action lookahead key. -/
def admissible (terminals : List Nat) (discard : Nat) (st : CtxState Nat) : Finset Nat :=
  (st.gotoSyms.filter (fun s => decide (s ∈ terminals))).toFinset ∪ {discard} ∪
    (st.actionKeys.flatMap (fun la => la)).toFinset

/-- The `lex_map` / `term_lists` loop of `make_lime_parser`: each state
is assigned the index of its admissible set in the list of distinct
admissible sets seen so far, appending a fresh entry when new. -/
def ctxPartition (terminals : List Nat) (discard : Nat) :
    List (CtxState Nat) → List Nat → List (Finset Nat) → List Nat × List (Finset Nat)
  | [], ids, tls => (ids, tls)
  | st :: rest, ids, tls =>
    match posOf tls (admissible terminals discard st) with
    | some idx => ctxPartition terminals discard rest (ids ++ [idx]) tls
    | none =>
      ctxPartition terminals discard rest (ids ++ [tls.length])
        (tls ++ [admissible terminals discard st])

/-- `fa.union_fa` on the arena representation: concatenate the arenas,
shifting state indices, and join the initial sets. -/
def shiftFa (off : Nat) (fa : Fa α) : Fa α :=
  ⟨fa.states.map (fun st => ⟨st.outedges.map (fun e => (e.1 + off, e.2)), st.accept⟩),
   fa.initial.map (fun i => i + off)⟩

def union_fa (fas : List (Fa α)) : Fa α :=
  fas.foldl
    (fun acc fa =>
      ⟨acc.states ++ (shiftFa acc.states.length fa).states,
       acc.initial ++ (shiftFa acc.states.length fa).initial⟩)
    ⟨[], []⟩

/-- The lexer-construction loop: one minimized union DFA per distinct
admissible set, selecting the automata of the admissible token ids. -/
def ctxLexers [DecidableEq α] (combine : α → α → α) (fuel : Nat) (fas : List (Fa α))
    (termLists : List (Finset Nat)) : List (Option (Fa α)) :=
  termLists.map (fun tl =>
    minimize_enfa combine fuel
      (union_fa ((fas.enum.filter (fun p => decide (p.1 ∈ tl))).map (fun p => p.2))))

theorem ctxPartition_spec (terminals : List Nat) (discard : Nat) :
    ∀ (states : List (CtxState Nat)) (ids : List Nat) (tls : List (Finset Nat)),
      tls.Nodup →
      (ctxPartition terminals discard states ids tls).2.Nodup
      ∧ (∀ n id, ids.get? n = some id →
          (ctxPartition terminals discard states ids tls).1.get? n = some id)
      ∧ (∀ i t, tls.get? i = some t →
          (ctxPartition terminals discard states ids tls).2.get? i = some t)
      ∧ (∀ n st, states.get? n = some st →
          ∃ id, (ctxPartition terminals discard states ids tls).1.get? (ids.length + n) = some id
            ∧ (ctxPartition terminals discard states ids tls).2.get? id =
                some (admissible terminals discard st))
      ∧ (∀ t ∈ (ctxPartition terminals discard states ids tls).2,
          t ∈ tls ∨ ∃ st ∈ states, admissible terminals discard st = t) := by
  intro states
  induction states with
  | nil =>
    intro ids tls hnd
    rw [ctxPartition]
    refine ⟨hnd, fun n id h => h, fun i t h => h, ?_, ?_⟩
    · intro n st h; simp at h
    · intro t ht; exact Or.inl ht
  | cons st0 rest ih =>
    intro ids tls hnd
    rw [ctxPartition]
    cases hp : posOf tls (admissible terminals discard st0) with
    | some idx =>
      have hidx := posOf_get hp
      rcases ih (ids ++ [idx]) tls hnd with ⟨h1, h2, h3, h4, h5⟩
      refine ⟨h1, ?_, h3, ?_, ?_⟩
      · intro n id h
        refine h2 n id ?_
        rw [List.get?_append (List.get?_eq_some.mp h).1]
        exact h
      · intro n st h
        cases n with
        | zero =>
          cases h
          refine ⟨idx, ?_, h3 idx _ hidx⟩
          have := h2 ids.length idx get?_append_len
          simpa using this
        | succ n' =>
          rcases h4 n' st h with ⟨id, hg1, hg2⟩
          refine ⟨id, ?_, hg2⟩
          rw [show ids.length + (n' + 1) = (ids ++ [idx]).length + n' from by simp; omega]
          exact hg1
      · intro t ht
        rcases h5 t ht with ht' | ⟨st', hst', he⟩
        · exact Or.inl ht'
        · exact Or.inr ⟨st', List.mem_cons_of_mem _ hst', he⟩
    | none =>
      have hnotin : admissible terminals discard st0 ∉ tls := posOf_none.mp hp
      have hnd' : (tls ++ [admissible terminals discard st0]).Nodup := by
        rw [List.nodup_append]
        exact ⟨hnd, List.nodup_singleton _, by
          intro x hx
          simp only [List.mem_singleton]
          intro he
          exact hnotin (he ▸ hx)⟩
      rcases ih (ids ++ [tls.length]) (tls ++ [admissible terminals discard st0]) hnd' with
        ⟨h1, h2, h3, h4, h5⟩
      refine ⟨h1, ?_, ?_, ?_, ?_⟩
      · intro n id h
        refine h2 n id ?_
        rw [List.get?_append (List.get?_eq_some.mp h).1]
        exact h
      · intro i t h
        refine h3 i t ?_
        rw [List.get?_append (List.get?_eq_some.mp h).1]
        exact h
      · intro n st h
        cases n with
        | zero =>
          cases h
          refine ⟨tls.length, ?_, ?_⟩
          · have := h2 ids.length tls.length get?_append_len
            simpa using this
          · exact h3 tls.length _ get?_append_len
        | succ n' =>
          rcases h4 n' st h with ⟨id, hg1, hg2⟩
          refine ⟨id, ?_, hg2⟩
          rw [show ids.length + (n' + 1) = (ids ++ [tls.length]).length + n' from by simp; omega]
          exact hg1
      · intro t ht
        rcases h5 t ht with ht' | ⟨st', hst', he⟩
        · rcases List.mem_append.mp ht' with ht2 | ht2
          · exact Or.inl ht2
          · rcases List.mem_singleton.mp ht2 with rfl
            exact Or.inr ⟨st0, List.mem_cons_self _ _, rfl⟩
        · exact Or.inr ⟨st', List.mem_cons_of_mem _ hst', he⟩

/-- Claim C4: when the grammar requests a context lexer,
`make_lime_parser` assigns two LR states the same `lexer_id` iff their
admissible sets (terminal goto keys, lookahead-key symbols and the
discard id) are equal, and builds exactly one minimized union DFA per
distinct admissible set — in particular, exactly as many lexer DFAs as
there are distinct admissible sets. -/
theorem claim_C4 [DecidableEq α] (combine : α → α → α) (fuel : Nat)
    (terminals : List Nat) (discard : Nat) (states : List (CtxState Nat)) (fas : List (Fa α)) :
    (∀ i j sti stj, states.get? i = some sti → states.get? j = some stj →
      ((ctxPartition terminals discard states [] []).1.get? i =
        (ctxPartition terminals discard states [] []).1.get? j ↔
       admissible terminals discard sti = admissible terminals discard stj))
    ∧ (ctxPartition terminals discard states [] []).2.length =
        (states.map (admissible terminals discard)).toFinset.card
    ∧ ctxLexers combine fuel fas (ctxPartition terminals discard states [] []).2 =
        (ctxPartition terminals discard states [] []).2.map (fun tl =>
          minimize_enfa combine fuel
            (union_fa ((fas.enum.filter (fun p => decide (p.1 ∈ tl))).map (fun p => p.2))))
    ∧ (ctxLexers combine fuel fas (ctxPartition terminals discard states [] []).2).length =
        (states.map (admissible terminals discard)).toFinset.card := by
  rcases ctxPartition_spec terminals discard states [] [] List.nodup_nil with
    ⟨hnd, _, _, hpt, hcov⟩
  have hmem : ∀ t, t ∈ (ctxPartition terminals discard states [] []).2 ↔
      ∃ st ∈ states, admissible terminals discard st = t := by
    intro t
    constructor
    · intro ht
      rcases hcov t ht with ht' | h
      · simp at ht'
      · exact h
    · rintro ⟨st, hst, rfl⟩
      rcases List.mem_iff_get.mp hst with ⟨n, hn⟩
      rcases hpt n.1 st (by rw [List.get?_eq_get n.2, hn]) with ⟨id, _, hg2⟩
      exact List.get?_mem hg2
  have hcount : (ctxPartition terminals discard states [] []).2.length =
      (states.map (admissible terminals discard)).toFinset.card := by
    rw [← List.toFinset_card_of_nodup hnd]
    congr 1
    apply Finset.ext
    intro t
    simp only [List.mem_toFinset, List.mem_map, hmem]
  refine ⟨?_, hcount, rfl, by rw [ctxLexers, List.length_map]; exact hcount⟩
  intro i j sti stj hi hj
  rcases hpt i sti hi with ⟨idi, hgi, hvi⟩
  rcases hpt j stj hj with ⟨idj, hgj, hvj⟩
  simp only [List.length_nil, Nat.zero_add] at hgi hgj
  rw [hgi, hgj]
  constructor
  · intro h
    cases h
    rw [hvi] at hvj
    exact Option.some.inj hvj
  · intro h
    have : (ctxPartition terminals discard states [] []).2.get? idi =
        (ctxPartition terminals discard states [] []).2.get? idj := by
      rw [hvi, hvj, h]
    have hlt : idi < (ctxPartition terminals discard states [] []).2.length :=
      (List.get?_eq_some.mp hvi).1
    rw [List.get?_inj hlt hnd this]

theorem claim_C4_witness :
    (((ctxPartition [5, 6] 9 [⟨[5], [[6]]⟩, ⟨[5], [[6]]⟩] [] []).1.get? 0 =
      (ctxPartition [5, 6] 9 [⟨[5], [[6]]⟩, ⟨[5], [[6]]⟩] [] []).1.get? 1) ↔
     (admissible [5, 6] 9 ⟨[5], [[6]]⟩ = admissible [5, 6] 9 ⟨[5], [[6]]⟩))
    ∧ (ctxPartition [5, 6] 9 [⟨[5], [[6]]⟩, ⟨[5], [[6]]⟩] [] []).2.length =
        ([⟨[5], [[6]]⟩, ⟨[5], [[6]]⟩].map (admissible [5, 6] 9)).toFinset.card :=
  ⟨(claim_C4 (fun a _ : Nat => a) 1 [5, 6] 9 [⟨[5], [[6]]⟩, ⟨[5], [[6]]⟩]
      ([] : List (Fa Nat))).1 0 1 ⟨[5], [[6]]⟩ ⟨[5], [[6]]⟩ rfl rfl,
   (claim_C4 (fun a _ : Nat => a) 1 [5, 6] 9 [⟨[5], [[6]]⟩, ⟨[5], [[6]]⟩]
      ([] : List (Fa Nat))).2.1⟩

/- ---------------------------------------------------------------------
   `regex_parser.py`: the regex AST, lexer and grammar (claim C6).

   Symbol codes: alt=0, cat=1, rep=2, atom=3, range=4, range_elem=5,
   `|`=6, `(`=7, `)`=8, `*`=9, `+`=10, `?`=11, `.`=12, c=13, esc=14,
   `[`=15, `]`=16, `^`=17, `-`=18.  Python `None` standing for the empty
   regex is the constructor `Reg.eps`.
   --------------------------------------------------------------------- -/

inductive Reg
  | eps
  | lit (l : Lit)
  | rep (t : Reg)
  | alt (ts : List Reg)
  | cat (ts : List Reg)
deriving Repr

/-- Semantic values flowing through the regex parser: regex nodes,
strings (token characters and `range` accumulations), and the tuples
built by the default action `_unbox_onetuples`. -/
inductive RVal
  | reg (r : Reg)
  | str (s : List Nat)
  | tup (vs : List RVal)
deriving Repr

def getReg : RVal → Reg
  | RVal.reg r => r
  | _ => Reg.eps

def getStr : RVal → List Nat
  | RVal.str s => s
  | _ => []

/-- `_unbox_onetuples`, the default rule action. -/
def unbox (vs : List RVal) : RVal :=
  match vs with
  | [v] => v
  | _ => RVal.tup vs

/-- `_escape_map.get(ch, ch)`: `d`, `s` and `w` map to their conventional
character sets; every other escaped character (including `n`) maps to
itself. -/
def escape_map (s : List Nat) : List Nat :=
  if s = [100] then rangeChars 48 57
  else if s = [115] then [32, 10, 13, 9, 11, 12]
  else if s = [119] then rangeChars 97 122 ++ rangeChars 65 90 ++ rangeChars 48 57 ++ [95]
  else s

/-- `_regex_grammar` as seen by the LR construction (left/right only). -/
def regexRules : List (Rule Nat) :=
  [⟨0, [1]⟩, ⟨0, [0, 6, 1]⟩,
   ⟨1, []⟩, ⟨1, [1, 2]⟩,
   ⟨2, [3]⟩, ⟨2, [3, 9]⟩, ⟨2, [3, 10]⟩, ⟨2, [3, 11]⟩,
   ⟨3, [7, 0, 8]⟩, ⟨3, [12]⟩, ⟨3, [13]⟩, ⟨3, [14]⟩, ⟨3, [15, 4, 16]⟩, ⟨3, [15, 17, 4, 16]⟩,
   ⟨4, []⟩, ⟨4, [4, 5]⟩,
   ⟨5, [13]⟩, ⟨5, [13, 18, 13]⟩, ⟨5, [14]⟩]

/-- The semantic actions of the augmented regex grammar (index 0 is the
synthetic root rule, never reduced). -/
def regexPRules : List (PRule (Option Nat) RVal) :=
  [⟨none, 1, unbox⟩,
   ⟨some 0, 1, unbox⟩,
   ⟨some 0, 3, fun vs =>
     match vs with
     | [l, _, r] =>
       match getReg l with
       | Reg.alt ts => RVal.reg (Reg.alt (ts ++ [getReg r]))
       | other => RVal.reg (Reg.alt [other, getReg r])
     | _ => RVal.tup vs⟩,
   ⟨some 1, 0, fun _ => RVal.reg Reg.eps⟩,
   ⟨some 1, 2, fun vs =>
     match vs with
     | [c, r] =>
       match getReg c with
       | Reg.eps => r
       | Reg.cat ts => RVal.reg (Reg.cat (ts ++ [getReg r]))
       | other => RVal.reg (Reg.cat [other, getReg r])
     | _ => RVal.tup vs⟩,
   ⟨some 2, 1, unbox⟩,
   ⟨some 2, 2, fun vs =>
     match vs with
     | [a, _] => RVal.reg (Reg.rep (getReg a))
     | _ => RVal.tup vs⟩,
   ⟨some 2, 2, fun vs =>
     match vs with
     | [a, _] => RVal.reg (Reg.cat [getReg a, Reg.rep (getReg a)])
     | _ => RVal.tup vs⟩,
   ⟨some 2, 2, fun vs =>
     match vs with
     | [a, _] => RVal.reg (Reg.alt [Reg.eps, getReg a])
     | _ => RVal.tup vs⟩,
   ⟨some 3, 3, fun vs =>
     match vs with
     | [_, a, _] => a
     | _ => RVal.tup vs⟩,
   ⟨some 3, 1, fun _ => RVal.reg (Reg.lit ⟨[], true⟩)⟩,
   ⟨some 3, 1, fun vs =>
     match vs with
     | [c] => RVal.reg (Reg.lit ⟨getStr c, false⟩)
     | _ => RVal.tup vs⟩,
   ⟨some 3, 1, fun vs =>
     match vs with
     | [c] => RVal.reg (Reg.lit ⟨escape_map (getStr c), false⟩)
     | _ => RVal.tup vs⟩,
   ⟨some 3, 3, fun vs =>
     match vs with
     | [_, r, _] => RVal.reg (Reg.lit ⟨getStr r, false⟩)
     | _ => RVal.tup vs⟩,
   ⟨some 3, 4, fun vs =>
     match vs with
     | [_, _, r, _] => RVal.reg (Reg.lit ⟨getStr r, true⟩)
     | _ => RVal.tup vs⟩,
   ⟨some 4, 0, fun _ => RVal.str []⟩,
   ⟨some 4, 2, fun vs =>
     match vs with
     | [r, e] => RVal.str (getStr r ++ getStr e)
     | _ => RVal.tup vs⟩,
   ⟨some 5, 1, fun vs =>
     match vs with
     | [c] => c
     | _ => RVal.tup vs⟩,
   ⟨some 5, 3, fun vs =>
     match vs with
     | [l, _, r] => RVal.str (rangeChars ((getStr l).headD 0) ((getStr r).headD 0))
     | _ => RVal.tup vs⟩,
   ⟨some 5, 1, fun vs =>
     match vs with
     | [c] => RVal.str (escape_map (getStr c))
     | _ => RVal.tup vs⟩]

/-- The special characters `+*[]()-|?^.` and their symbol codes. -/
def specialSym (ch : Nat) : Option Nat :=
  if ch = 43 then some 10
  else if ch = 42 then some 9
  else if ch = 91 then some 15
  else if ch = 93 then some 16
  else if ch = 40 then some 7
  else if ch = 41 then some 8
  else if ch = 45 then some 18
  else if ch = 124 then some 6
  else if ch = 63 then some 11
  else if ch = 94 then some 17
  else if ch = 46 then some 12
  else none

/-- `_regex_lexer`: backslash sets the escape flag; an escaped character
becomes an `esc` token, special characters become their own tokens,
everything else a `c` token; a trailing backslash is emitted as the
literal character `\`. -/
def regex_lexer : List Nat → Bool → List (Nat × RVal)
  | [], esc => if esc then [(13, RVal.str [92])] else []
  | ch :: rest, esc =>
    if esc then (14, RVal.str [ch]) :: regex_lexer rest false
    else if ch = 92 then regex_lexer rest true
    else
      match specialSym ch with
      | some sym => (sym, RVal.str [ch]) :: regex_lexer rest false
      | none => (13, RVal.str [ch]) :: regex_lexer rest false

/-- `parse_regex`: build the LR(1) parser for `_regex_grammar` once and
run it over the lexed input. -/
def parse_regex (fuel : Nat) (input : List Nat) : Option (ParseOut RVal) :=
  match make_lrparser regexRules none 1 fuel with
  | Except.error _ => none
  | Except.ok p =>
    some (parseLr p regexPRules 1 fuel ((regex_lexer input false).map (fun t => (some t.1, t.2))))

/-- The LR(1) parse table that `make_lrparser` computes for
`_regex_grammar` (47 states); checked against the construction in
`regexTable_ok` and reused so that individual parses evaluate cheaply. -/
def regexTable : Parser (Option Nat) :=
  { states := [{ action := [([], some 3), ([some 7], some 3), ([some 12], some 3), ([some 13], some 3), ([some 14], some 3), ([some 15], some 3), ([some 6], some 3)], gotoT := [(some 0, 1), (some 1, 2)] }, { action := [([], none), ([some 6], none)], gotoT := [(some 6, 3)] }, { action := [([], some 1), ([some 6], some 1), ([some 7], none), ([some 12], none), ([some 13], none), ([some 14], none), ([some 15], none)], gotoT := [(some 2, 4), (some 3, 5), (some 7, 6), (some 12, 7), (some 13, 8), (some 14, 9), (some 15, 10)] }, { action := [([], some 3), ([some 6], some 3), ([some 7], some 3), ([some 12], some 3), ([some 13], some 3), ([some 14], some 3), ([some 15], some 3)], gotoT := [(some 1, 11)] }, { action := [([], some 4), ([some 7], some 4), ([some 12], some 4), ([some 13], some 4), ([some 14], some 4), ([some 15], some 4), ([some 6], some 4)], gotoT := [] }, { action := [([], some 5), ([some 9], none), ([some 10], none), ([some 11], none), ([some 7], some 5), ([some 12], some 5), ([some 13], some 5), ([some 14], some 5), ([some 15], some 5), ([some 6], some 5)], gotoT := [(some 9, 12), (some 10, 13), (some 11, 14)] }, { action := [([some 8], some 3), ([some 7], some 3), ([some 12], some 3), ([some 13], some 3), ([some 14], some 3), ([some 15], some 3), ([some 6], some 3)], gotoT := [(some 0, 15), (some 1, 16)] }, { action := [([], some 10), ([some 9], some 10), ([some 10], some 10), ([some 11], some 10), ([some 7], some 10), ([some 12], some 10), ([some 13], some 10), ([some 14], some 10), ([some 15], some 10), ([some 6], some 10)], gotoT := [] }, { action := [([], some 11), ([some 9], some 11), ([some 10], some 11), ([some 11], some 11), ([some 7], some 11), ([some 12], some 11), ([some 13], some 11), ([some 14], some 11), ([some 15], some 11), ([some 6], some 11)], gotoT := [] }, { action := [([], some 12), ([some 9], some 12), ([some 10], some 12), ([some 11], some 12), ([some 7], some 12), ([some 12], some 12), ([some 13], some 12), ([some 14], some 12), ([some 15], some 12), ([some 6], some 12)], gotoT := [] }, { action := [([some 17], none), ([some 16], some 15), ([some 13], some 15), ([some 14], some 15)], gotoT := [(some 4, 17), (some 17, 18)] }, { action := [([], some 2), ([some 6], some 2), ([some 7], none), ([some 12], none), ([some 13], none), ([some 14], none), ([some 15], none)], gotoT := [(some 2, 4), (some 3, 5), (some 7, 6), (some 12, 7), (some 13, 8), (some 14, 9), (some 15, 10)] }, { action := [([], some 6), ([some 7], some 6), ([some 12], some 6), ([some 13], some 6), ([some 14], some 6), ([some 15], some 6), ([some 6], some 6)], gotoT := [] }, { action := [([], some 7), ([some 7], some 7), ([some 12], some 7), ([some 13], some 7), ([some 14], some 7), ([some 15], some 7), ([some 6], some 7)], gotoT := [] }, { action := [([], some 8), ([some 7], some 8), ([some 12], some 8), ([some 13], some 8), ([some 14], some 8), ([some 15], some 8), ([some 6], some 8)], gotoT := [] }, { action := [([some 8], none), ([some 6], none)], gotoT := [(some 8, 19), (some 6, 20)] }, { action := [([some 8], some 1), ([some 6], some 1), ([some 7], none), ([some 12], none), ([some 13], none), ([some 14], none), ([some 15], none)], gotoT := [(some 2, 21), (some 3, 22), (some 7, 23), (some 12, 24), (some 13, 25), (some 14, 26), (some 15, 27)] }, { action := [([some 16], none), ([some 13], none), ([some 14], none)], gotoT := [(some 16, 28), (some 5, 29), (some 13, 30), (some 14, 31)] }, { action := [([some 16], some 15), ([some 13], some 15), ([some 14], some 15)], gotoT := [(some 4, 32)] }, { action := [([], some 9), ([some 9], some 9), ([some 10], some 9), ([some 11], some 9), ([some 7], some 9), ([some 12], some 9), ([some 13], some 9), ([some 14], some 9), ([some 15], some 9), ([some 6], some 9)], gotoT := [] }, { action := [([some 8], some 3), ([some 6], some 3), ([some 7], some 3), ([some 12], some 3), ([some 13], some 3), ([some 14], some 3), ([some 15], some 3)], gotoT := [(some 1, 33)] }, { action := [([some 8], some 4), ([some 7], some 4), ([some 12], some 4), ([some 13], some 4), ([some 14], some 4), ([some 15], some 4), ([some 6], some 4)], gotoT := [] }, { action := [([some 8], some 5), ([some 9], none), ([some 10], none), ([some 11], none), ([some 7], some 5), ([some 12], some 5), ([some 13], some 5), ([some 14], some 5), ([some 15], some 5), ([some 6], some 5)], gotoT := [(some 9, 34), (some 10, 35), (some 11, 36)] }, { action := [([some 8], some 3), ([some 7], some 3), ([some 12], some 3), ([some 13], some 3), ([some 14], some 3), ([some 15], some 3), ([some 6], some 3)], gotoT := [(some 0, 37), (some 1, 16)] }, { action := [([some 8], some 10), ([some 9], some 10), ([some 10], some 10), ([some 11], some 10), ([some 7], some 10), ([some 12], some 10), ([some 13], some 10), ([some 14], some 10), ([some 15], some 10), ([some 6], some 10)], gotoT := [] }, { action := [([some 8], some 11), ([some 9], some 11), ([some 10], some 11), ([some 11], some 11), ([some 7], some 11), ([some 12], some 11), ([some 13], some 11), ([some 14], some 11), ([some 15], some 11), ([some 6], some 11)], gotoT := [] }, { action := [([some 8], some 12), ([some 9], some 12), ([some 10], some 12), ([some 11], some 12), ([some 7], some 12), ([some 12], some 12), ([some 13], some 12), ([some 14], some 12), ([some 15], some 12), ([some 6], some 12)], gotoT := [] }, { action := [([some 17], none), ([some 16], some 15), ([some 13], some 15), ([some 14], some 15)], gotoT := [(some 4, 38), (some 17, 39)] }, { action := [([], some 13), ([some 9], some 13), ([some 10], some 13), ([some 11], some 13), ([some 7], some 13), ([some 12], some 13), ([some 13], some 13), ([some 14], some 13), ([some 15], some 13), ([some 6], some 13)], gotoT := [] }, { action := [([some 16], some 16), ([some 13], some 16), ([some 14], some 16)], gotoT := [] }, { action := [([some 16], some 17), ([some 18], none), ([some 13], some 17), ([some 14], some 17)], gotoT := [(some 18, 40)] }, { action := [([some 16], some 19), ([some 13], some 19), ([some 14], some 19)], gotoT := [] }, { action := [([some 16], none), ([some 13], none), ([some 14], none)], gotoT := [(some 16, 41), (some 5, 29), (some 13, 30), (some 14, 31)] }, { action := [([some 8], some 2), ([some 6], some 2), ([some 7], none), ([some 12], none), ([some 13], none), ([some 14], none), ([some 15], none)], gotoT := [(some 2, 21), (some 3, 22), (some 7, 23), (some 12, 24), (some 13, 25), (some 14, 26), (some 15, 27)] }, { action := [([some 8], some 6), ([some 7], some 6), ([some 12], some 6), ([some 13], some 6), ([some 14], some 6), ([some 15], some 6), ([some 6], some 6)], gotoT := [] }, { action := [([some 8], some 7), ([some 7], some 7), ([some 12], some 7), ([some 13], some 7), ([some 14], some 7), ([some 15], some 7), ([some 6], some 7)], gotoT := [] }, { action := [([some 8], some 8), ([some 7], some 8), ([some 12], some 8), ([some 13], some 8), ([some 14], some 8), ([some 15], some 8), ([some 6], some 8)], gotoT := [] }, { action := [([some 8], none), ([some 6], none)], gotoT := [(some 8, 42), (some 6, 20)] }, { action := [([some 16], none), ([some 13], none), ([some 14], none)], gotoT := [(some 16, 43), (some 5, 29), (some 13, 30), (some 14, 31)] }, { action := [([some 16], some 15), ([some 13], some 15), ([some 14], some 15)], gotoT := [(some 4, 44)] }, { action := [([some 13], none)], gotoT := [(some 13, 45)] }, { action := [([], some 14), ([some 9], some 14), ([some 10], some 14), ([some 11], some 14), ([some 7], some 14), ([some 12], some 14), ([some 13], some 14), ([some 14], some 14), ([some 15], some 14), ([some 6], some 14)], gotoT := [] }, { action := [([some 8], some 9), ([some 9], some 9), ([some 10], some 9), ([some 11], some 9), ([some 7], some 9), ([some 12], some 9), ([some 13], some 9), ([some 14], some 9), ([some 15], some 9), ([some 6], some 9)], gotoT := [] }, { action := [([some 8], some 13), ([some 9], some 13), ([some 10], some 13), ([some 11], some 13), ([some 7], some 13), ([some 12], some 13), ([some 13], some 13), ([some 14], some 13), ([some 15], some 13), ([some 6], some 13)], gotoT := [] }, { action := [([some 16], none), ([some 13], none), ([some 14], none)], gotoT := [(some 16, 46), (some 5, 29), (some 13, 30), (some 14, 31)] }, { action := [([some 16], some 18), ([some 13], some 18), ([some 14], some 18)], gotoT := [] }, { action := [([some 8], some 14), ([some 9], some 14), ([some 10], some 14), ([some 11], some 14), ([some 7], some 14), ([some 12], some 14), ([some 13], some 14), ([some 14], some 14), ([some 15], some 14), ([some 6], some 14)], gotoT := [] }], accepting := 1 }

set_option maxRecDepth 100000 in
theorem regexTable_ok :
    make_lrparser regexRules none 1 2000 = Except.ok regexTable := by
  rfl

theorem parse_regex_eq (input : List Nat) :
    parse_regex 2000 input =
      some (parseLr regexTable regexPRules 1 2000
        ((regex_lexer input false).map (fun t => (some t.1, t.2)))) := by
  unfold parse_regex
  rw [regexTable_ok]

/-- Claim C6 (counterexample): the claim says `parse_regex` maps the
escape `\n` to a `Lit` denoting the newline character. In the code,
`_escape_map` has no entry for `n`, so `_escape_map.get('n', 'n')`
returns the literal character `n`: parsing the two-character input
`\n` (and the character class `[\n]`) yields `Lit({'n'})`, which
contains the letter `n` (110) and does not contain newline (10). -/
theorem claim_C6_counterexample :
    parse_regex 2000 [92, 110] =
      some (ParseOut.ok (RVal.reg (Reg.lit ⟨[110], false⟩))) ∧
    litMem 10 ⟨[110], false⟩ = false ∧
    litMem 110 ⟨[110], false⟩ = true ∧
    parse_regex 2000 [91, 92, 110, 93] =
      some (ParseOut.ok (RVal.reg (Reg.lit ⟨[110], false⟩))) := by
  refine ⟨?_, by decide, by decide, ?_⟩
  · rw [parse_regex_eq]; rfl
  · rw [parse_regex_eq]; rfl

/-- Claim C6 (amended): `parse_regex` maps `\d`, `\s` and `\w` to `Lit`
nodes denoting the conventional character sets (decimal digits;
whitespace including newline; word characters), and maps every other
backslash-escaped character — including `n` — to a `Lit` containing
exactly that literal character, both as standalone atoms and inside
character classes. -/
theorem claim_C6_amended :
    parse_regex 2000 [92, 100] =
      some (ParseOut.ok (RVal.reg (Reg.lit ⟨rangeChars 48 57, false⟩))) ∧
    (parse_regex 2000 [92, 115] =
      some (ParseOut.ok (RVal.reg (Reg.lit ⟨[32, 10, 13, 9, 11, 12], false⟩))) ∧
     litMem 10 ⟨[32, 10, 13, 9, 11, 12], false⟩ = true) ∧
    parse_regex 2000 [92, 119] =
      some (ParseOut.ok (RVal.reg (Reg.lit
        ⟨rangeChars 97 122 ++ rangeChars 65 90 ++ rangeChars 48 57 ++ [95], false⟩))) ∧
    (∀ s : List Nat, s ≠ [100] → s ≠ [115] → s ≠ [119] → escape_map s = s) ∧
    parse_regex 2000 [92, 43] =
      some (ParseOut.ok (RVal.reg (Reg.lit ⟨[43], false⟩))) ∧
    parse_regex 2000 [91, 92, 100, 93] =
      some (ParseOut.ok (RVal.reg (Reg.lit ⟨rangeChars 48 57, false⟩))) ∧
    parse_regex 2000 [91, 94, 92, 100, 93] =
      some (ParseOut.ok (RVal.reg (Reg.lit ⟨rangeChars 48 57, true⟩))) := by
  refine ⟨?_, ⟨?_, by decide⟩, ?_, ?_, ?_, ?_, ?_⟩
  · rw [parse_regex_eq]; rfl
  · rw [parse_regex_eq]; rfl
  · rw [parse_regex_eq]; rfl
  · intro s h1 h2 h3
    simp [escape_map, h1, h2, h3]
  · rw [parse_regex_eq]; rfl
  · rw [parse_regex_eq]; rfl
  · rw [parse_regex_eq]; rfl
